import Mathlib

/-!
Shallow embedding of the tile38 geospatial collection
(src/controller/collection/collection.go) together with the Feature object
from src/geojson/feature.go.

Modelling conventions:
- Go float64 values (coordinates and field values) are modelled as exact
  rationals; IEEE rounding is out of scope for the claims settled here.
- The two btrees (keyed by id, and by stringified value plus id) are
  modelled as strictly sorted lists, the external R-tree as a list searched
  by bounding-box overlap.
- Go byte slices that hold JSON are modelled as strings; string length
  stands for byte length (exact for ASCII data).
- Code paths that panic in Go (out-of-range slice indexing) are modelled by
  an Option result, with none standing for the panic.
- Members of the repository that are not under src (the R-tree, the helper
  functions of the geojson package other than Feature, the standard JSON
  codec) are modelled from the spec; each such definition carries a doc
  comment saying so.
-/

/-- Scalar standing for the Go float64 type: coordinates and field values. -/
abbrev F := Rat

/-- Position models geojson.Position: X is longitude, Y latitude, Z elevation. -/
structure Position where
  x : F
  y : F
  z : F
deriving DecidableEq

/-- BBox models geojson.BBox, a 3D axis-aligned box. -/
structure BBox where
  min : Position
  max : Position
deriving DecidableEq

/-- Modelled from the spec: byte size of one coordinate position
(three 64-bit floats), used by Feature.Weight in feature.go. -/
def sizeofPosition : Nat := 24

/-- GeoObject models the geojson.Object interface variants the claims need:
null stands for a nil Go interface value, str for the non-geometry
geojson.String variant (modelled from the spec, which lists String as the
non-geometry variant), geom is an opaque geometry leaf standing for
Point, Polygon and the other geometry types (external to src), and feature
is the Feature type of src/geojson/feature.go, whose Geometry member may be
nil in Go. -/
inductive GeoObject where
  | null
  | str (s : String)
  | geom (w pc : Nat) (bb : BBox) (json : String)
  | feature (geometry : GeoObject) (bbox : Option BBox) (properties : String)
deriving DecidableEq

/-- IsGeometry from the source: feature.go lines 172 to 175 return true for
every Feature, regardless of its Geometry member; the geometry leaf is a
geometry; the String variant is non-geometry (modelled from the spec). -/
def GeoObject.IsGeometry : GeoObject → Bool
  | .null => false
  | .str _ => false
  | .geom _ _ _ _ => true
  | .feature _ _ _ => true

/-- PositionCount from feature.go lines 68 to 75: the count of the geometry
plus 2 when a bbox is present. A nil Geometry member would make the Go code
panic; it is modelled as contributing 0 (no claim depends on that value).
The leaf carries its count, the String variant has none (spec-modelled). -/
def GeoObject.PositionCount : GeoObject → Nat
  | .null => 0
  | .str _ => 0
  | .geom _ pc _ _ => pc
  | .feature g bb _ => g.PositionCount + (if bb.isSome then 2 else 0)

/-- Weight from feature.go lines 77 to 82 for Feature; the leaf carries its
weight; the String variant weighs its length (spec-modelled). -/
def GeoObject.Weight : GeoObject → Nat
  | .null => 0
  | .str s => s.length
  | .geom w _ _ _ => w
  | .feature g bb p => (GeoObject.feature g bb p).PositionCount * sizeofPosition + p.length

/-- Textual rendering of an optional bbox member, standing for the external
BBox.write helper used by Feature.JSON. Modelled from the spec: the helper
appends a bbox member when the bbox is defined and nothing otherwise. -/
def bboxWrite : Option BBox → String
  | none => ""
  | some b =>
      ",\"bbox\":[" ++ reprStr b.min.x ++ "," ++ reprStr b.min.y ++ ","
        ++ reprStr b.max.x ++ "," ++ reprStr b.max.y ++ "]"

/-- JSON rendering: for Feature this follows feature.go lines 90 to 101;
the leaf carries its JSON; the String variant renders as itself
(spec-modelled; no claim depends on it). -/
def GeoObject.JSONStr : GeoObject → String
  | .null => ""
  | .str s => s
  | .geom _ _ _ j => j
  | .feature g bb p =>
      "\x7b\"type\":\"Feature\",\"geometry\":" ++ g.JSONStr ++ bboxWrite bb
        ++ (if p != "" then ",\"properties\":" ++ p else "") ++ "\x7d"

/-- Capability record standing for the data-facing part of the
geojson.Object interface as consumed by the collection code. -/
structure ObjectOps (α : Type) where
  isGeometry : α → Bool
  weight : α → Nat
  positionCount : α → Nat
  strRep : α → String
  marshalJSON : α → String

/-- Object capability instance for the GeoObject model. String returns the
JSON for a Feature (feature.go lines 103 to 106); MarshalJSON returns the
JSON bytes (feature.go lines 84 to 87). -/
def geoOps : ObjectOps GeoObject :=
  { isGeometry := GeoObject.IsGeometry
    weight := GeoObject.Weight
    positionCount := GeoObject.PositionCount
    strRep := GeoObject.JSONStr
    marshalJSON := GeoObject.JSONStr }

/-- ItemT models the itemT record of collection.go: id, object and the
field vector. -/
structure ItemT (α : Type) where
  id : String
  object : α
  fields : List F
deriving DecidableEq

/-- Collection models the Collection struct of collection.go. The items
list is the id-ordered btree, values the btree ordered by stringified
value and id, index the R-tree, fieldMap the name-to-slot map (as an
insertion-ordered association list). Counters are Go ints. -/
structure Collection (α : Type) where
  items : List (ItemT α)
  values : List (ItemT α)
  index : List (ItemT α)
  fieldMap : List (String × Nat)
  weight : Int
  points : Int
  objects : Int
  nobjects : Int
deriving DecidableEq

/-- New from collection.go lines 131 to 140: the empty collection. -/
def Collection.New {α : Type} : Collection α :=
  { items := [], values := [], index := [], fieldMap := []
    weight := 0, points := 0, objects := 0, nobjects := 0 }

/-- Point lookup in the id-ordered btree (items.Get). -/
def btGet {α : Type} : List (ItemT α) → String → Option (ItemT α)
  | [], _ => none
  | it :: rest, i => if it.id = i then some it else btGet rest i

/-- Deletion in the id-ordered btree (items.Delete): returns the removed
item, if any, and the remaining list. -/
def btDelete {α : Type} : List (ItemT α) → String → Option (ItemT α) × List (ItemT α)
  | [], _ => (none, [])
  | it :: rest, i =>
      if it.id = i then (some it, rest)
      else
        let r := btDelete rest i
        (r.1, it :: r.2)

/-- Comparison used by the Less methods of the Go btrees: Go compares
strings byte-wise; this is modelled character-wise on the string data,
which agrees with the byte order on ASCII data. An explicit recursion is
used because the builtin string order does not compute in the kernel. -/
def strLtB : List Char → List Char → Bool
  | [], [] => false
  | [], _ :: _ => true
  | _ :: _, [] => false
  | a :: as, b :: bs => if a < b then true else if b < a then false else strLtB as bs

/-- Go string less-than on the character data. -/
def strLt (a b : String) : Bool := strLtB a.data b.data

theorem strLtB_irrefl : ∀ l, strLtB l l = false := by
  intro l
  induction l with
  | nil => rfl
  | cons a as ih =>
      simp only [strLtB]
      rw [if_neg (lt_irrefl a), if_neg (lt_irrefl a)]
      exact ih

theorem strLtB_asymm : ∀ l₁ l₂, strLtB l₁ l₂ = true → strLtB l₂ l₁ = false := by
  intro l₁
  induction l₁ with
  | nil =>
      intro l₂ h
      cases l₂ with
      | nil => cases h
      | cons b bs => rfl
  | cons a as ih =>
      intro l₂ h
      cases l₂ with
      | nil => cases h
      | cons b bs =>
          simp only [strLtB] at h ⊢
          by_cases hab : a < b
          · rw [if_neg (asymm hab), if_pos hab]
          · rw [if_neg hab] at h
            by_cases hba : b < a
            · rw [if_pos hba] at h
              cases h
            · rw [if_neg hba] at h
              rw [if_neg hba, if_neg hab]
              exact ih bs h

theorem strLtB_trans : ∀ l₁ l₂ l₃, strLtB l₁ l₂ = true → strLtB l₂ l₃ = true →
    strLtB l₁ l₃ = true := by
  intro l₁
  induction l₁ with
  | nil =>
      intro l₂ l₃ h1 h2
      cases l₂ with
      | nil => cases h1
      | cons b bs =>
          cases l₃ with
          | nil => cases h2
          | cons c cs => rfl
  | cons a as ih =>
      intro l₂ l₃ h1 h2
      cases l₂ with
      | nil => cases h1
      | cons b bs =>
          cases l₃ with
          | nil => cases h2
          | cons c cs =>
              simp only [strLtB] at h1 h2 ⊢
              by_cases hab : a < b
              · by_cases hbc : b < c
                · rw [if_pos (lt_trans hab hbc)]
                · rw [if_neg hbc] at h2
                  by_cases hcb : c < b
                  · rw [if_pos hcb] at h2
                    cases h2
                  · have hbceq : b = c := le_antisymm (le_of_not_lt hcb) (le_of_not_lt hbc)
                    rw [if_pos (hbceq ▸ hab)]
              · rw [if_neg hab] at h1
                by_cases hba : b < a
                · rw [if_pos hba] at h1
                  cases h1
                · rw [if_neg hba] at h1
                  have habeq : a = b := le_antisymm (le_of_not_lt hba) (le_of_not_lt hab)
                  subst habeq
                  by_cases hac : a < c
                  · rw [if_pos hac]
                  · rw [if_neg hac] at h2 ⊢
                    by_cases hca : c < a
                    · rw [if_pos hca] at h2
                      cases h2
                    · rw [if_neg hca] at h2 ⊢
                      exact ih bs cs h1 h2

theorem strLtB_eq_of_nlt : ∀ l₁ l₂, strLtB l₁ l₂ = false → strLtB l₂ l₁ = false →
    l₁ = l₂ := by
  intro l₁
  induction l₁ with
  | nil =>
      intro l₂ h1 _
      cases l₂ with
      | nil => rfl
      | cons b bs => cases h1
  | cons a as ih =>
      intro l₂ h1 h2
      cases l₂ with
      | nil => cases h2
      | cons b bs =>
          simp only [strLtB] at h1 h2
          by_cases hab : a < b
          · rw [if_pos hab] at h1
            cases h1
          · by_cases hba : b < a
            · rw [if_pos hba] at h2
              cases h2
            · rw [if_neg hab, if_neg hba] at h1
              rw [if_neg hba, if_neg hab] at h2
              have habeq : a = b := le_antisymm (le_of_not_lt hba) (le_of_not_lt hab)
              rw [habeq, ih bs h1 h2]

theorem string_eq_of_data {a b : String} (h : a.data = b.data) : a = b := by
  cases a
  cases b
  exact congrArg String.mk (by simpa using h)

theorem strLt_irrefl (a : String) : strLt a a = false := strLtB_irrefl a.data

theorem strLt_not {a b : String} (h : strLt a b = true) : ¬ strLt b a = true := by
  intro hc
  rw [strLt] at h hc
  rw [strLtB_asymm a.data b.data h] at hc
  cases hc

theorem strLt_trans {a b c : String} (h1 : strLt a b = true) (h2 : strLt b c = true) :
    strLt a c = true := strLtB_trans a.data b.data c.data h1 h2

theorem strLt_ne {a b : String} (h : strLt a b = true) : a ≠ b := by
  intro hc
  subst hc
  rw [strLt_irrefl] at h
  cases h

theorem strLt_cases {a b : String} (h1 : ¬ strLt a b = true) (h2 : ¬ a = b) :
    strLt b a = true := by
  rcases hb : strLt b a with _ | _
  · exact absurd (string_eq_of_data (strLtB_eq_of_nlt a.data b.data
      (by rcases hx : strLt a b with _ | _
          · exact hx
          · exact absurd hx h1) hb)) h2
  · rfl

/-- Insertion in the id-ordered btree (items.ReplaceOrInsert): sorted
insert by id, replacing an entry with an equal id. -/
def btInsert {α : Type} : List (ItemT α) → ItemT α → List (ItemT α)
  | [], it => [it]
  | x :: rest, it =>
      if strLt it.id x.id = true then it :: x :: rest
      else if it.id = x.id then it :: rest
      else x :: btInsert rest it

/-- Insertion in the value-ordered btree (values.ReplaceOrInsert), keyed by
the stringified object with the id as tiebreaker, per the Less method of
itemT (collection.go lines 23 to 40). -/
def valInsert {α : Type} (ops : ObjectOps α) : List (ItemT α) → ItemT α → List (ItemT α)
  | [], it => [it]
  | x :: rest, it =>
      if strLt (ops.strRep it.object) (ops.strRep x.object) = true
          ∨ (ops.strRep it.object = ops.strRep x.object ∧ strLt it.id x.id = true) then
        it :: x :: rest
      else if ops.strRep it.object = ops.strRep x.object ∧ it.id = x.id then
        it :: rest
      else x :: valInsert ops rest it

/-- Deletion in the value-ordered btree (values.Delete): removes the entry
whose key, stringified object plus id, matches. -/
def valDelete {α : Type} (ops : ObjectOps α) : List (ItemT α) → String → String → List (ItemT α)
  | [], _, _ => []
  | x :: rest, s, i =>
      if ops.strRep x.object = s ∧ x.id = i then rest
      else x :: valDelete ops rest s i

/-- Removal from the R-tree (index.Remove), by the unique id of the item. -/
def idxRemove {α : Type} : List (ItemT α) → String → List (ItemT α)
  | [], _ => []
  | x :: rest, i => if x.id = i then rest else x :: idxRemove rest i

/-- Rewrites the field vector of the item with the given id in a list.
This models a write through the shared item pointer held by the trees. -/
def setItemFields {α : Type} (l : List (ItemT α)) (i : String) (fs : List F) : List (ItemT α) :=
  l.map fun it => if it.id = i then { it with fields := fs } else it

/-- Applies a field-vector write through the shared item pointer to all
three indexes of the collection. -/
def Collection.withFields {α : Type} (c : Collection α) (i : String) (fs : List F) : Collection α :=
  { c with items := setItemFields c.items i fs
           values := setItemFields c.values i fs
           index := setItemFields c.index i fs }

/-- Removal helper from collection.go lines 190 to 207: deletes from the id
btree; on a hit, unlinks from the R-tree or the value btree depending on
IsGeometry, decrements the matching counter, and subtracts the field,
object, and id weight and the position count. -/
def Collection.remove {α : Type} (ops : ObjectOps α) (c : Collection α) (i : String) :
    Option (ItemT α) × Collection α :=
  match btDelete c.items i with
  | (none, _) => (none, c)
  | (some item, items') =>
      let c1 := { c with items := items' }
      let c2 :=
        if ops.isGeometry item.object then
          { c1 with index := idxRemove c1.index item.id, objects := c1.objects - 1 }
        else
          { c1 with values := valDelete ops c1.values (ops.strRep item.object) item.id
                    nobjects := c1.nobjects - 1 }
      (some item,
       { c2 with
           weight := c2.weight - 8 * (item.fields.length : Int)
                       - ((ops.weight item.object : Int) + (item.id.length : Int))
           points := c2.points - (ops.positionCount item.object : Int) })

/-- Insertion helper from collection.go lines 209 to 222: creates the item
with an empty field vector, routes it into the R-tree or the value btree by
IsGeometry, increments the matching counter, inserts into the id btree and
adds the object and id weight and the position count. -/
def Collection.insert {α : Type} (ops : ObjectOps α) (c : Collection α) (i : String) (obj : α) :
    ItemT α × Collection α :=
  let item : ItemT α := { id := i, object := obj, fields := [] }
  let c1 :=
    if ops.isGeometry obj then
      { c with index := c.index ++ [item], objects := c.objects + 1 }
    else
      { c with values := valInsert ops c.values item, nobjects := c.nobjects + 1 }
  (item,
   { c1 with
       items := btInsert c1.items item
       weight := c1.weight + ((ops.weight obj : Int) + (i.length : Int))
       points := c1.points + (ops.positionCount obj : Int) })

/-- Slot lookup in the field registry (the fieldMap map access). -/
def lookupSlot : List (String × Nat) → String → Option Nat
  | [], _ => none
  | e :: rest, n => if e.1 = n then some e.2 else lookupSlot rest n

/-- Zero extension of a field vector up to and including a slot index,
modelling the append loop of setField (collection.go lines 269 to 271). -/
def extendTo (fs : List F) (idx : Nat) : List F :=
  fs ++ List.replicate (idx + 1 - fs.length) 0

/-- setField from collection.go lines 262 to 276: ensures a slot for the
name (assigning the next slot on first use), zero-extends the field vector
of the addressed item through the shared pointer, adjusts weight, writes
the value and reports whether the previous slot value differed. The item
is addressed by id, standing for the Go item pointer; the none branch is
unreachable from the callers, which pass ids present in the id btree. -/
def Collection.setField {α : Type} (c : Collection α) (i field : String) (value : F) :
    Bool × Collection α :=
  let p :=
    match lookupSlot c.fieldMap field with
    | some k => (k, c.fieldMap)
    | none => (c.fieldMap.length, c.fieldMap ++ [(field, c.fieldMap.length)])
  match btGet c.items i with
  | none => (false, { c with fieldMap := p.2 })
  | some item =>
      let fs1 := extendTo item.fields p.1
      let fs2 := fs1.set p.1 value
      let ovalue := fs1.getD p.1 0
      (ovalue != value,
       { c.withFields i fs2 with
           fieldMap := p.2
           weight := c.weight - 8 * (item.fields.length : Int) + 8 * (fs2.length : Int) })

/-- SetField from collection.go lines 251 to 260: looks the item up in the
id btree, returns ok false when absent, otherwise applies setField and
returns the object, the updated field vector, the updated flag and ok. -/
def Collection.SetField {α : Type} (c : Collection α) (i field : String) (value : F) :
    Option α × Option (List F) × Bool × Bool × Collection α :=
  match btGet c.items i with
  | none => (none, none, false, false, c)
  | some _ =>
      let r := c.setField i field value
      match btGet r.2.items i with
      | some item' => (some item'.object, some item'.fields, r.1, true, r.2)
      | none => (none, none, r.1, true, r.2)

/-- Field-assignment loop of ReplaceOrInsert (collection.go lines 182 to
185): walks the name list with the parallel value list; running out of
values while names remain is the Go out-of-range panic, modelled as none. -/
def Collection.setFieldsLoop {α : Type} (c : Collection α) (i : String) :
    List String → List F → Option (Collection α)
  | [], _ => some c
  | _ :: _, [] => none
  | f :: fs, v :: vs => Collection.setFieldsLoop ((c.setField i f v).2) i fs vs

/-- ReplaceOrInsert from collection.go lines 166 to 188: removes any item
with the id, inserts the new object, lets the new item adopt the old field
vector (re-adding its weight), then either adopts the raw value list
verbatim (when the name list is the Go nil and values are non-empty,
the snapshot-restore path) or applies the name and value pairs through
setField. Returns the old object, the old fields, the new fields and the
new state; none stands for the Go panic of the value-indexing loop. -/
def Collection.ReplaceOrInsert {α : Type} (ops : ObjectOps α) (c : Collection α) (i : String)
    (obj : α) (fieldNames : Option (List String)) (values : List F) :
    Option (Option α × List F × List F × Collection α) :=
  let r := c.remove ops i
  let c2 := (r.2.insert ops i obj).2
  let oldFields := match r.1 with | some old => old.fields | none => []
  let c3 :=
    match r.1 with
    | some old =>
        { c2.withFields i old.fields with
            weight := c2.weight + 8 * (old.fields.length : Int) }
    | none => c2
  if fieldNames = none ∧ values.length > 0 then
    let cur := ((btGet c3.items i).map fun it => it.fields.length).getD 0
    let c4 :=
      { c3.withFields i values with
          weight := c3.weight - 8 * (cur : Int) + 8 * (values.length : Int) }
    some ((r.1.map fun it => it.object), oldFields,
          (((btGet c4.items i).map fun it => it.fields).getD []), c4)
  else
    match Collection.setFieldsLoop c3 i (fieldNames.getD []) values with
    | none => none
    | some c4 =>
        some ((r.1.map fun it => it.object), oldFields,
              (((btGet c4.items i).map fun it => it.fields).getD []), c4)

/-- Remove from collection.go lines 226 to 232: public removal returning
the prior object and fields and a found flag. -/
def Collection.Remove {α : Type} (ops : ObjectOps α) (c : Collection α) (i : String) :
    Option α × Option (List F) × Bool × Collection α :=
  match c.remove ops i with
  | (none, c') => (none, none, false, c')
  | (some item, c') => (some item.object, some item.fields, true, c')

/-- Get from collection.go lines 234 to 247. -/
def Collection.Get {α : Type} (c : Collection α) (i : String) :
    Option α × Option (List F) × Bool :=
  match btGet c.items i with
  | none => (none, none, false)
  | some it => (some it.object, some it.fields, true)

/-- Count from collection.go lines 143 to 145. -/
def Collection.Count {α : Type} (c : Collection α) : Int := c.objects + c.nobjects

/-- TotalWeight from collection.go lines 152 to 155. -/
def Collection.TotalWeight {α : Type} (c : Collection α) : Int := c.weight

/-- FieldArr from collection.go lines 284 to 290: an array of the registry
size whose position i receives the name mapped to slot i. Out-of-range
slots, which would make the Go write panic, cannot arise from the
operations of this file; a position no entry maps to stays empty. -/
def Collection.FieldArr {α : Type} (c : Collection α) : List String :=
  (List.range c.fieldMap.length).map fun k =>
    (((c.fieldMap.find? fun e => e.2 == k).map fun e => e.1).getD "")

/-- Row of the portable snapshot document (collection.go lines 52 to 56);
obj holds the marshalled object bytes. -/
structure Row where
  id : String
  obj : String
  values : List F
deriving DecidableEq

/-- Portable snapshot document (collection.go lines 58 to 61). -/
structure Portable where
  rows : List Row
  fields : List String
deriving DecidableEq

/-- MarshalJSON from collection.go lines 63 to 91: one row per item in
ascending id order with the marshalled object bytes and the field vector,
plus the ordered field-name array. The encoder preallocates Count rows and
guards the ascending scan with the index bound, modelled by the take and
the padding, which are the identity when Count matches the tree size. -/
def Collection.MarshalJSON {α : Type} (ops : ObjectOps α) (c : Collection α) : Portable :=
  let cnt := c.Count.toNat
  { rows := ((c.items.map fun it => Row.mk it.id (ops.marshalJSON it.object) it.fields).take cnt)
              ++ List.replicate (cnt - c.items.length) (Row.mk "" "" [])
    fields := c.FieldArr }

/-- Input document for snapshot decode. Modelled from the spec and the
standard JSON codec: empty stands for nil or empty input bytes, malformed
for bytes the JSON layer rejects, and ok for a parsed document whose
top-level fields array may be missing (the Go nil slice, hence Option). -/
inductive Doc where
  | empty
  | malformed
  | ok (rows : List Row) (fields : Option (List String))
deriving DecidableEq

/-- Row loop of UnmarshalJSON (collection.go lines 106 to 112): resolves
each row object through the auto-typed parser, aborting with the error and
the partial state on failure, and feeds ReplaceOrInsert with the full
field-name array of the document and the row values. The none result
stands for the panic of the indexing loop inside ReplaceOrInsert. -/
def Collection.decodeRows {α : Type} (ops : ObjectOps α) (parse : String → Except String α)
    (fields : Option (List String)) :
    Collection α → List Row → Option (Except String Unit × Collection α)
  | c, [] => some (Except.ok (), c)
  | c, r :: rest =>
      match parse r.obj with
      | Except.error e => some (Except.error e, c)
      | Except.ok obj =>
          match c.ReplaceOrInsert ops r.id obj fields r.values with
          | none => none
          | some q => Collection.decodeRows ops parse fields q.2.2.2 rest

/-- UnmarshalJSON from collection.go lines 93 to 115: nil input is an
error (line 96), bytes the JSON layer rejects are an error (line 102,
modelled from the standard codec, which also rejects empty input), and
otherwise the rows are replayed through ReplaceOrInsert. -/
def Collection.UnmarshalJSON {α : Type} (ops : ObjectOps α) (parse : String → Except String α)
    (c : Collection α) : Doc → Option (Except String Unit × Collection α)
  | .empty => some (Except.error "No bytes were input", c)
  | .malformed => some (Except.error "invalid json", c)
  | .ok rows fields => Collection.decodeRows ops parse fields c rows

/-- View of a portable document as a decode input: the JSON serialization
of a Portable value parses back to itself with the fields array present. -/
def Portable.toDoc (p : Portable) : Doc := .ok p.rows (some p.fields)

/-- Step relates a collection state to a successor state produced by one
public mutation: ReplaceOrInsert, Remove, SetField or snapshot decode.
Mutations that panic in Go (the none results) produce no step. -/
inductive Collection.Step {α : Type} (ops : ObjectOps α) (parse : String → Except String α) :
    Collection α → Collection α → Prop
  | replaceOrInsert (c : Collection α) (i : String) (obj : α) (fn : Option (List String))
      (vs : List F) (q : Option α × List F × List F × Collection α)
      (h : c.ReplaceOrInsert ops i obj fn vs = some q) :
      Collection.Step ops parse c q.2.2.2
  | removeStep (c : Collection α) (i : String) :
      Collection.Step ops parse c (c.Remove ops i).2.2.2
  | setFieldStep (c : Collection α) (i field : String) (v : F) :
      Collection.Step ops parse c (c.SetField i field v).2.2.2.2
  | decodeStep (c : Collection α) (d : Doc) (q : Except String Unit × Collection α)
      (h : c.UnmarshalJSON ops parse d = some q) :
      Collection.Step ops parse c q.2

/-- Reachable states: those produced from the empty collection by a finite
sequence of public mutations. -/
inductive Collection.Reachable {α : Type} (ops : ObjectOps α) (parse : String → Except String α) :
    Collection α → Prop
  | new : Collection.Reachable ops parse Collection.New
  | step (c c' : Collection α) (hc : Collection.Reachable ops parse c)
      (h : Collection.Step ops parse c c') : Collection.Reachable ops parse c'

/-- Weight contribution of one stored item: object weight plus id length
plus eight bytes per field slot. -/
def itemWeight {α : Type} (ops : ObjectOps α) (it : ItemT α) : Int :=
  (ops.weight it.object : Int) + (it.id.length : Int) + 8 * (it.fields.length : Int)

/-- Counter invariant of the claims: the geometry plus non-geometry count
equals the size of the id btree, points is the sum of the position counts,
and weight is the sum of the item weights. -/
def Collection.CountersOk {α : Type} (ops : ObjectOps α) (c : Collection α) : Prop :=
  c.objects + c.nobjects = (c.items.length : Int)
    ∧ c.points = (c.items.map fun it => ((ops.positionCount it.object : Int))).sum
    ∧ c.weight = (c.items.map (itemWeight ops)).sum

/-- Structural invariant: the id btree is strictly sorted, the registry
slots are exactly 0 to n-1 in insertion order, and the registry names are
pairwise distinct. -/
def Collection.WFc {α : Type} (c : Collection α) : Prop :=
  c.items.Pairwise (fun a b => strLt a.id b.id = true)
    ∧ c.fieldMap.map Prod.snd = List.range c.fieldMap.length
    ∧ (c.fieldMap.map Prod.fst).Nodup

instance {α : Type} (ops : ObjectOps α) (c : Collection α) :
    Decidable (Collection.CountersOk ops c) := by
  unfold Collection.CountersOk; infer_instance

instance {α : Type} (c : Collection α) : Decidable (Collection.WFc c) := by
  unfold Collection.WFc; infer_instance

/-! Helper lemmas about the list models of the btrees and the R-tree. -/

theorem btDelete_eq_none {α : Type} (l : List (ItemT α)) (i : String)
    (h : btGet l i = none) : btDelete l i = (none, l) := by
  induction l with
  | nil => simp [btDelete]
  | cons x rest ih =>
      simp only [btGet] at h
      by_cases hx : x.id = i
      · simp [hx] at h
      · rw [if_neg hx] at h
        simp only [btDelete]
        rw [if_neg hx, ih h]

theorem btDelete_some_split {α : Type} (l : List (ItemT α)) (i : String)
    (it : ItemT α) (h : (btDelete l i).1 = some it) :
    ∃ l₁ l₂, l = l₁ ++ it :: l₂ ∧ (btDelete l i).2 = l₁ ++ l₂ ∧ it.id = i := by
  induction l with
  | nil => simp [btDelete] at h
  | cons x rest ih =>
      by_cases hx : x.id = i
      · simp only [btDelete] at h ⊢
        rw [if_pos hx] at h ⊢
        obtain rfl : x = it := by simpa using h
        exact ⟨[], rest, rfl, rfl, hx⟩
      · simp only [btDelete] at h ⊢
        rw [if_neg hx] at h ⊢
        obtain ⟨l₁, l₂, e1, e2, e3⟩ := ih h
        exact ⟨x :: l₁, l₂, by simp [e1], by simp [e2], e3⟩

theorem btGet_eq_none_of_forall {α : Type} (l : List (ItemT α)) (i : String)
    (h : ∀ x ∈ l, x.id ≠ i) : btGet l i = none := by
  induction l with
  | nil => rfl
  | cons x rest ih =>
      simp only [btGet]
      rw [if_neg (h x (by simp))]
      exact ih fun y hy => h y (by simp [hy])

theorem btGet_some_split {α : Type} (l : List (ItemT α)) (i : String) (it : ItemT α)
    (h : btGet l i = some it) :
    ∃ l₁ l₂, l = l₁ ++ it :: l₂ ∧ (∀ x ∈ l₁, x.id ≠ i) ∧ it.id = i := by
  induction l with
  | nil => simp [btGet] at h
  | cons x rest ih =>
      by_cases hx : x.id = i
      · simp only [btGet] at h
        rw [if_pos hx] at h
        obtain rfl : x = it := by simpa using h
        exact ⟨[], rest, rfl, by simp, hx⟩
      · simp only [btGet] at h
        rw [if_neg hx] at h
        obtain ⟨l₁, l₂, e1, e2, e3⟩ := ih h
        refine ⟨x :: l₁, l₂, by simp [e1], ?_, e3⟩
        intro y hy
        rcases List.mem_cons.mp hy with rfl | hy
        · exact hx
        · exact e2 y hy

theorem btInsert_append_of_max {α : Type} (l : List (ItemT α)) (it : ItemT α)
    (h : ∀ x ∈ l, strLt x.id it.id = true) : btInsert l it = l ++ [it] := by
  induction l with
  | nil => rfl
  | cons x rest ih =>
      have hx : strLt x.id it.id = true := h x (by simp)
      simp only [btInsert]
      rw [if_neg (strLt_not hx), if_neg (by intro hc; rw [hc, strLt_irrefl] at hx; cases hx),
        ih fun y hy => h y (by simp [hy])]
      rfl

theorem btInsert_split {α : Type} (l : List (ItemT α)) (it : ItemT α)
    (h : ∀ x ∈ l, x.id ≠ it.id) :
    ∃ l₁ l₂, l = l₁ ++ l₂ ∧ btInsert l it = l₁ ++ it :: l₂ := by
  induction l with
  | nil => exact ⟨[], [], rfl, rfl⟩
  | cons x rest ih =>
      by_cases h1 : strLt it.id x.id = true
      · refine ⟨[], x :: rest, rfl, ?_⟩
        simp only [btInsert]
        rw [if_pos h1]
        rfl
      · have h2 : ¬ it.id = x.id := fun hc => h x (by simp) hc.symm
        obtain ⟨l₁, l₂, e1, e2⟩ := ih fun y hy => h y (by simp [hy])
        refine ⟨x :: l₁, l₂, by simp [e1], ?_⟩
        simp only [btInsert]
        rw [if_neg h1, if_neg h2, e2]
        rfl

theorem btGet_btInsert_self {α : Type} (l : List (ItemT α)) (it : ItemT α) :
    btGet (btInsert l it) it.id = some it := by
  induction l with
  | nil => simp [btInsert, btGet]
  | cons x rest ih =>
      by_cases h1 : strLt it.id x.id = true
      · simp only [btInsert]
        rw [if_pos h1]
        simp [btGet]
      · by_cases h2 : it.id = x.id
        · simp only [btInsert]
          rw [if_neg h1, if_pos h2]
          simp [btGet]
        · have hx : ¬ x.id = it.id := fun hc => h2 hc.symm
          simp only [btInsert]
          rw [if_neg h1, if_neg h2]
          simp only [btGet]
          rw [if_neg hx]
          exact ih

theorem setItemFields_of_absent {α : Type} (l : List (ItemT α)) (i : String) (fs : List F)
    (h : ∀ x ∈ l, x.id ≠ i) : setItemFields l i fs = l := by
  induction l with
  | nil => rfl
  | cons x rest ih =>
      simp only [setItemFields, List.map_cons]
      rw [if_neg (h x (by simp))]
      have := ih fun y hy => h y (by simp [hy])
      simp only [setItemFields] at this
      rw [this]

theorem setItemFields_ids {α : Type} (l : List (ItemT α)) (i : String) (fs : List F) :
    (setItemFields l i fs).map (fun x => x.id) = l.map (fun x => x.id) := by
  induction l with
  | nil => rfl
  | cons x rest ih =>
      simp only [setItemFields, List.map_cons] at ih ⊢
      by_cases hx : x.id = i
      · rw [if_pos hx, ih]
      · rw [if_neg hx, ih]

theorem pairwise_ids_of_map {α : Type} {l l' : List (ItemT α)}
    (h : l'.map (fun x => x.id) = l.map (fun x => x.id))
    (hp : l.Pairwise (fun a b => strLt a.id b.id = true)) :
    l'.Pairwise (fun a b => strLt a.id b.id = true) := by
  have h1 : (l.map (fun x => x.id)).Pairwise (fun a b => strLt a b = true) :=
    (List.pairwise_map).mpr hp
  have h2 : (l'.map (fun x => x.id)).Pairwise (fun a b => strLt a b = true) := h ▸ h1
  exact (List.pairwise_map).mp h2

theorem nodup_ids_of_pairwise {α : Type} {l : List (ItemT α)}
    (hp : l.Pairwise (fun a b => strLt a.id b.id = true)) :
    (l.map (fun x => x.id)).Nodup :=
  (List.pairwise_map).mpr (hp.imp fun h => strLt_ne h)

theorem btGet_none_forall {α : Type} (l : List (ItemT α)) (i : String)
    (h : btGet l i = none) : ∀ x ∈ l, x.id ≠ i := by
  induction l with
  | nil => simp
  | cons x rest ih =>
      simp only [btGet] at h
      by_cases hx : x.id = i
      · rw [if_pos hx] at h; cases h
      · rw [if_neg hx] at h
        intro y hy
        rcases List.mem_cons.mp hy with rfl | hy
        · exact hx
        · exact ih h y hy

theorem btDelete_fst_none {α : Type} (l : List (ItemT α)) (i : String)
    (h : (btDelete l i).1 = none) : btGet l i = none := by
  induction l with
  | nil => rfl
  | cons x rest ih =>
      simp only [btDelete] at h
      by_cases hx : x.id = i
      · rw [if_pos hx] at h; cases h
      · rw [if_neg hx] at h
        simp only [btGet]
        rw [if_neg hx]
        exact ih h

theorem lookupSlot_none_forall (fm : List (String × Nat)) (n : String)
    (h : lookupSlot fm n = none) : ∀ e ∈ fm, e.1 ≠ n := by
  induction fm with
  | nil => simp
  | cons e rest ih =>
      simp only [lookupSlot] at h
      by_cases he : e.1 = n
      · rw [if_pos he] at h; cases h
      · rw [if_neg he] at h
        intro y hy
        rcases List.mem_cons.mp hy with rfl | hy
        · exact he
        · exact ih h y hy

theorem setItemFields_split {α : Type} (l : List (ItemT α)) (i : String) (it : ItemT α)
    (fs : List F) (hget : btGet l i = some it) (hn : (l.map (fun x => x.id)).Nodup) :
    ∃ l₁ l₂, l = l₁ ++ it :: l₂
      ∧ setItemFields l i fs = l₁ ++ { it with fields := fs } :: l₂ := by
  obtain ⟨l₁, l₂, e1, e2, e3⟩ := btGet_some_split l i it hget
  refine ⟨l₁, l₂, e1, ?_⟩
  have hnod := e1 ▸ hn
  simp only [List.map_append, List.map_cons, List.nodup_append] at hnod
  have h2 : ∀ x ∈ l₂, x.id ≠ i := by
    intro x hx hc
    have := hnod.2.1
    simp only [List.nodup_cons, List.mem_map] at this
    exact this.1 ⟨x, hx, by rw [hc, e3]⟩
  subst e1
  simp only [setItemFields, List.map_append, List.map_cons]
  rw [if_pos e3]
  have r1 : l₁.map (fun x => if x.id = i then { x with fields := fs } else x) = l₁ :=
    setItemFields_of_absent l₁ i fs e2
  have r2 : l₂.map (fun x => if x.id = i then { x with fields := fs } else x) = l₂ :=
    setItemFields_of_absent l₂ i fs h2
  rw [r1, r2]

theorem map_sum_setItemFields {α : Type} (l : List (ItemT α)) (i : String) (it : ItemT α)
    (fs : List F) (g : ItemT α → Int) (hget : btGet l i = some it)
    (hn : (l.map (fun x => x.id)).Nodup) :
    ((setItemFields l i fs).map g).sum = (l.map g).sum - g it + g { it with fields := fs } := by
  obtain ⟨l₁, l₂, e1, e2⟩ := setItemFields_split l i it fs hget hn
  rw [e2, e1]
  simp only [List.map_append, List.map_cons, List.sum_append, List.sum_cons]
  ring

theorem btGet_setItemFields {α : Type} (l : List (ItemT α)) (i : String) (it : ItemT α)
    (fs : List F) (hget : btGet l i = some it) :
    btGet (setItemFields l i fs) i = some { it with fields := fs } := by
  induction l with
  | nil => simp [btGet] at hget
  | cons x rest ih =>
      simp only [btGet] at hget
      by_cases hx : x.id = i
      · rw [if_pos hx] at hget
        obtain rfl : x = it := by simpa using hget
        simp only [setItemFields, List.map_cons]
        rw [if_pos hx]
        simp only [btGet]
        rw [if_pos hx]
      · rw [if_neg hx] at hget
        simp only [setItemFields, List.map_cons]
        rw [if_neg hx]
        simp only [btGet]
        rw [if_neg hx]
        exact ih hget

theorem length_setItemFields {α : Type} (l : List (ItemT α)) (i : String) (fs : List F) :
    (setItemFields l i fs).length = l.length := List.length_map _ _

/-- Combined invariant used by the preservation proofs. -/
def Collection.Inv {α : Type} (ops : ObjectOps α) (c : Collection α) : Prop :=
  c.CountersOk ops ∧ c.WFc

instance {α : Type} (ops : ObjectOps α) (c : Collection α) :
    Decidable (Collection.Inv ops c) := by
  unfold Collection.Inv
  infer_instance

theorem ids_ne_of_split {α : Type} (l₁ l₂ : List (ItemT α)) (it : ItemT α) (i : String)
    (hn : ((l₁ ++ it :: l₂).map (fun x => x.id)).Nodup) (hi : it.id = i) :
    (∀ x ∈ l₁, x.id ≠ i) ∧ (∀ x ∈ l₂, x.id ≠ i) := by
  rw [List.map_append, List.map_cons, List.nodup_append] at hn
  obtain ⟨hn1, hn2, hdisj⟩ := hn
  rw [List.nodup_cons] at hn2
  constructor
  · intro x hx hc
    exact hdisj (List.mem_map.mpr ⟨x, hx, rfl⟩)
      (by rw [hc, ← hi]; exact List.mem_cons_self _ _)
  · intro x hx hc
    exact hn2.1 (by rw [hi, ← hc]; exact List.mem_map.mpr ⟨x, hx, rfl⟩)

theorem countersOk_of_fields {α : Type} (ops : ObjectOps α) (c c' : Collection α)
    (i : String) (it : ItemT α) (fs : List F)
    (hget : btGet c.items i = some it) (hn : (c.items.map (fun x => x.id)).Nodup)
    (hc : c.CountersOk ops)
    (hitems : c'.items = setItemFields c.items i fs)
    (hw : c'.weight = c.weight - 8 * (it.fields.length : Int) + 8 * (fs.length : Int))
    (hp : c'.points = c.points) (ho : c'.objects = c.objects)
    (hno : c'.nobjects = c.nobjects) : c'.CountersOk ops := by
  obtain ⟨h1, h2, h3⟩ := hc
  refine ⟨?_, ?_, ?_⟩
  · rw [ho, hno, hitems, length_setItemFields]
    exact h1
  · rw [hp, hitems,
      map_sum_setItemFields c.items i it fs _ hget hn]
    simp [h2]
  · rw [hw, hitems, map_sum_setItemFields c.items i it fs (itemWeight ops) hget hn, ← h3]
    simp only [itemWeight]
    ring

theorem wfc_of_fields {α : Type} (c c' : Collection α) (i : String) (fs : List F)
    (hitems : c'.items = setItemFields c.items i fs)
    (hfm : c'.fieldMap = c.fieldMap) (hw : c.WFc) : c'.WFc := by
  obtain ⟨h1, h2, h3⟩ := hw
  refine ⟨?_, ?_, ?_⟩
  · exact pairwise_ids_of_map (by rw [hitems, setItemFields_ids]) h1
  · rw [hfm]; exact h2
  · rw [hfm]; exact h3

theorem wfc_of_fieldAppend {α : Type} (c c' : Collection α) (f : String)
    (hfm : c'.fieldMap = c.fieldMap ++ [(f, c.fieldMap.length)])
    (hnew : lookupSlot c.fieldMap f = none)
    (hit : c'.items.Pairwise (fun a b => strLt a.id b.id = true)) (hw : c.WFc) : c'.WFc := by
  obtain ⟨h1, h2, h3⟩ := hw
  refine ⟨hit, ?_, ?_⟩
  · rw [hfm]
    simp only [List.map_append, List.map_cons, List.map_nil, List.length_append,
      List.length_cons, List.length_nil]
    rw [h2, List.range_succ]
  · rw [hfm]
    simp only [List.map_append, List.map_cons, List.map_nil]
    rw [List.nodup_append]
    refine ⟨h3, List.nodup_singleton f, ?_⟩
    intro a ha hb
    have haf : a = f := by simpa using hb
    obtain ⟨e, he, he2⟩ := List.mem_map.mp ha
    exact lookupSlot_none_forall c.fieldMap f hnew e he (by rw [he2, haf])

theorem btInsert_mem {α : Type} (l : List (ItemT α)) (it y : ItemT α)
    (hy : y ∈ btInsert l it) : y ∈ l ∨ y = it := by
  induction l with
  | nil => simp [btInsert] at hy; exact Or.inr hy
  | cons x rest ih =>
      simp only [btInsert] at hy
      by_cases h1 : strLt it.id x.id = true
      · rw [if_pos h1] at hy
        rcases List.mem_cons.mp hy with rfl | hy
        · exact Or.inr rfl
        · exact Or.inl hy
      · rw [if_neg h1] at hy
        by_cases h2 : it.id = x.id
        · rw [if_pos h2] at hy
          rcases List.mem_cons.mp hy with rfl | hy
          · exact Or.inr rfl
          · exact Or.inl (List.mem_cons.mpr (Or.inr hy))
        · rw [if_neg h2] at hy
          rcases List.mem_cons.mp hy with rfl | hy
          · exact Or.inl (List.mem_cons.mpr (Or.inl rfl))
          · rcases ih hy with hm | hm
            · exact Or.inl (List.mem_cons.mpr (Or.inr hm))
            · exact Or.inr hm

theorem btInsert_pairwise {α : Type} (l : List (ItemT α)) (it : ItemT α)
    (hp : l.Pairwise (fun a b => strLt a.id b.id = true)) (h : ∀ x ∈ l, x.id ≠ it.id) :
    (btInsert l it).Pairwise (fun a b => strLt a.id b.id = true) := by
  induction l with
  | nil => simp [btInsert]
  | cons x rest ih =>
      rw [List.pairwise_cons] at hp
      obtain ⟨hx, hp'⟩ := hp
      simp only [btInsert]
      by_cases h1 : strLt it.id x.id = true
      · rw [if_pos h1]
        rw [List.pairwise_cons]
        refine ⟨?_, List.pairwise_cons.mpr ⟨hx, hp'⟩⟩
        intro y hy
        rcases List.mem_cons.mp hy with rfl | hy
        · exact h1
        · exact strLt_trans h1 (hx y hy)
      · rw [if_neg h1]
        have h2 : ¬ it.id = x.id := fun hc => h x (by simp) hc.symm
        rw [if_neg h2]
        have hxlt : strLt x.id it.id = true := strLt_cases h1 h2
        rw [List.pairwise_cons]
        refine ⟨?_, ih hp' fun y hy => h y (by simp [hy])⟩
        intro y hy
        rcases btInsert_mem rest it y hy with hm | rfl
        · exact hx y hm
        · exact hxlt

theorem remove_inv {α : Type} (ops : ObjectOps α) (c : Collection α) (i : String)
    (hc : c.Inv ops) :
    (c.remove ops i).2.Inv ops ∧ (c.remove ops i).2.fieldMap = c.fieldMap
      ∧ btGet (c.remove ops i).2.items i = none := by
  rcases hfst : (btDelete c.items i).1 with _ | it
  · have hget : btGet c.items i = none := btDelete_fst_none _ _ hfst
    have hd : btDelete c.items i = (none, c.items) := btDelete_eq_none _ _ hget
    simp only [Collection.remove, hd]
    exact ⟨hc, by trivial, hget⟩
  · obtain ⟨l₁, l₂, e1, e2, e3⟩ := btDelete_some_split c.items i it hfst
    have hd : btDelete c.items i = (some it, l₁ ++ l₂) := by
      rw [← hfst, ← e2]
    obtain ⟨⟨hcnt, hpts, hwt⟩, hpw, hrange, hnodk⟩ := hc
    have hnod : (c.items.map (fun x => x.id)).Nodup := nodup_ids_of_pairwise hpw
    have hpw' : (l₁ ++ l₂).Pairwise (fun a b => strLt a.id b.id = true) := by
      refine List.Pairwise.sublist ?_ (e1 ▸ hpw)
      exact List.Sublist.append_left (List.sublist_cons_self _ _) l₁
    have hids := ids_ne_of_split l₁ l₂ it i (e1 ▸ hnod) e3
    have hgetgone : btGet (l₁ ++ l₂) i = none := by
      apply btGet_eq_none_of_forall
      intro x hx
      rcases List.mem_append.mp hx with hm | hm
      · exact hids.1 x hm
      · exact hids.2 x hm
    have hlen : (c.items.length : Int) = (l₁.length : Int) + (l₂.length : Int) + 1 := by
      rw [e1]; push_cast [List.length_append, List.length_cons]; ring
    have hsump : (c.items.map fun x => (ops.positionCount x.object : Int)).sum
        = ((l₁.map fun x => (ops.positionCount x.object : Int)).sum)
          + (ops.positionCount it.object : Int)
          + ((l₂.map fun x => (ops.positionCount x.object : Int)).sum) := by
      rw [e1]
      simp only [List.map_append, List.map_cons, List.sum_append, List.sum_cons]
      ring
    have hsumw : (c.items.map (itemWeight ops)).sum
        = ((l₁.map (itemWeight ops)).sum)
          + ((ops.weight it.object : Int) + (it.id.length : Int)
              + 8 * (it.fields.length : Int))
          + ((l₂.map (itemWeight ops)).sum) := by
      rw [e1]
      simp only [List.map_append, List.map_cons, List.sum_append, List.sum_cons, itemWeight]
      ring
    simp only [Collection.remove, hd]
    by_cases hg : ops.isGeometry it.object
    · rw [if_pos hg]
      refine ⟨⟨⟨?_, ?_, ?_⟩, hpw', hrange, hnodk⟩, by trivial, hgetgone⟩
      · simp only [List.length_append]
        push_cast
        rw [hlen] at hcnt
        omega
      · rw [hpts, hsump]
        simp only [List.map_append, List.sum_append]
        omega
      · rw [hwt, hsumw]
        simp only [List.map_append, List.sum_append]
        omega
    · rw [if_neg hg]
      refine ⟨⟨⟨?_, ?_, ?_⟩, hpw', hrange, hnodk⟩, by trivial, hgetgone⟩
      · simp only [List.length_append]
        push_cast
        rw [hlen] at hcnt
        omega
      · rw [hpts, hsump]
        simp only [List.map_append, List.sum_append]
        omega
      · rw [hwt, hsumw]
        simp only [List.map_append, List.sum_append]
        omega

theorem insert_inv {α : Type} (ops : ObjectOps α) (c : Collection α) (i : String) (obj : α)
    (hc : c.Inv ops) (hf : btGet c.items i = none) :
    (c.insert ops i obj).2.Inv ops ∧ (c.insert ops i obj).2.fieldMap = c.fieldMap
      ∧ btGet (c.insert ops i obj).2.items i
          = some { id := i, object := obj, fields := [] } := by
  obtain ⟨⟨hcnt, hpts, hwt⟩, hpw, hrange, hnodk⟩ := hc
  have hfresh : ∀ x ∈ c.items, x.id ≠ ({ id := i, object := obj, fields := [] } : ItemT α).id :=
    btGet_none_forall c.items i hf
  obtain ⟨l₁, l₂, e1, e2⟩ := btInsert_split c.items _ hfresh
  have hpw2 : (btInsert c.items { id := i, object := obj, fields := [] }).Pairwise
      (fun a b => strLt a.id b.id = true) := btInsert_pairwise _ _ hpw hfresh
  have hgot : btGet (btInsert c.items { id := i, object := obj, fields := [] }) i
      = some { id := i, object := obj, fields := [] } :=
    btGet_btInsert_self c.items { id := i, object := obj, fields := [] }
  have hlen : ((btInsert c.items { id := i, object := obj, fields := [] }).length : Int)
      = (c.items.length : Int) + 1 := by
    rw [e2, e1]
    push_cast [List.length_append, List.length_cons]
    ring
  have hsump : ((btInsert c.items { id := i, object := obj, fields := [] }).map
        fun x => (ops.positionCount x.object : Int)).sum
      = (c.items.map fun x => (ops.positionCount x.object : Int)).sum
        + (ops.positionCount obj : Int) := by
    rw [e2, e1]
    simp only [List.map_append, List.map_cons, List.sum_append, List.sum_cons]
    ring
  have hsumw : ((btInsert c.items { id := i, object := obj, fields := [] }).map
        (itemWeight ops)).sum
      = (c.items.map (itemWeight ops)).sum + ((ops.weight obj : Int) + (i.length : Int)) := by
    rw [e2, e1]
    simp only [List.map_append, List.map_cons, List.sum_append, List.sum_cons, itemWeight]
    simp
    ring
  have hgcnt1 : c.objects + 1 + c.nobjects
      = ((btInsert c.items { id := i, object := obj, fields := [] }).length : Int) := by
    rw [hlen]
    omega
  have hgcnt2 : c.objects + (c.nobjects + 1)
      = ((btInsert c.items { id := i, object := obj, fields := [] }).length : Int) := by
    rw [hlen]
    omega
  have hgpts : c.points + (ops.positionCount obj : Int)
      = ((btInsert c.items { id := i, object := obj, fields := [] }).map
          fun x => (ops.positionCount x.object : Int)).sum := by
    rw [hsump, hpts]
  have hgwt : c.weight + ((ops.weight obj : Int) + (i.length : Int))
      = ((btInsert c.items { id := i, object := obj, fields := [] }).map
          (itemWeight ops)).sum := by
    rw [hsumw, hwt]
  by_cases hg : ops.isGeometry obj
  · simp only [Collection.insert, if_pos hg]
    refine ⟨⟨⟨?_, ?_, ?_⟩, hpw2, hrange, hnodk⟩, by trivial, hgot⟩
    · exact hgcnt1
    · exact hgpts
    · exact hgwt
  · simp only [Collection.insert, if_neg hg]
    refine ⟨⟨⟨?_, ?_, ?_⟩, hpw2, hrange, hnodk⟩, by trivial, hgot⟩
    · exact hgcnt2
    · exact hgpts
    · exact hgwt

theorem setField_inv {α : Type} (ops : ObjectOps α) (c : Collection α) (i field : String)
    (v : F) (hc : c.Inv ops) :
    (c.setField i field v).2.Inv ops
      ∧ (∃ t, (c.setField i field v).2.fieldMap = c.fieldMap ++ t) := by
  obtain ⟨⟨hcnt, hpts, hwt⟩, hpw, hrange, hnodk⟩ := hc
  have hnod : (c.items.map (fun x => x.id)).Nodup := nodup_ids_of_pairwise hpw
  rcases hslot : lookupSlot c.fieldMap field with _ | k
  · rcases hget : btGet c.items i with _ | item
    · simp only [Collection.setField, hslot, hget]
      refine ⟨⟨⟨hcnt, hpts, hwt⟩, ?_⟩, ⟨[(field, c.fieldMap.length)], rfl⟩⟩
      exact wfc_of_fieldAppend c _ field rfl hslot hpw ⟨hpw, hrange, hnodk⟩
    · simp only [Collection.setField, hslot, hget]
      refine ⟨⟨?_, ?_⟩, ⟨[(field, c.fieldMap.length)], rfl⟩⟩
      · exact countersOk_of_fields ops c _ i item _ hget hnod ⟨hcnt, hpts, hwt⟩
          rfl rfl rfl rfl rfl
      · refine wfc_of_fieldAppend c _ field rfl hslot ?_ ⟨hpw, hrange, hnodk⟩
        exact pairwise_ids_of_map (setItemFields_ids c.items i _) hpw
  · rcases hget : btGet c.items i with _ | item
    · simp only [Collection.setField, hslot, hget]
      exact ⟨⟨⟨hcnt, hpts, hwt⟩, hpw, hrange, hnodk⟩, ⟨[], by simp⟩⟩
    · simp only [Collection.setField, hslot, hget]
      refine ⟨⟨?_, ?_⟩, ⟨[], by simp⟩⟩
      · exact countersOk_of_fields ops c _ i item _ hget hnod ⟨hcnt, hpts, hwt⟩
          rfl rfl rfl rfl rfl
      · exact wfc_of_fields c _ i _ rfl rfl ⟨hpw, hrange, hnodk⟩

theorem withFields_inv {α : Type} (ops : ObjectOps α) (c : Collection α) (i : String)
    (it : ItemT α) (fs : List F) (w : Int) (hget : btGet c.items i = some it)
    (hc : c.Inv ops)
    (hw : w = c.weight - 8 * (it.fields.length : Int) + 8 * (fs.length : Int)) :
    Collection.Inv ops { c.withFields i fs with weight := w } := by
  obtain ⟨⟨hcnt, hpts, hwt⟩, hpw, hrange, hnodk⟩ := hc
  have hnod : (c.items.map (fun x => x.id)).Nodup := nodup_ids_of_pairwise hpw
  constructor
  · exact countersOk_of_fields ops c _ i it fs hget hnod ⟨hcnt, hpts, hwt⟩ rfl hw rfl rfl rfl
  · exact wfc_of_fields c _ i fs rfl rfl ⟨hpw, hrange, hnodk⟩

theorem setFieldsLoop_inv {α : Type} (ops : ObjectOps α) (i : String) :
    ∀ (ns : List String) (vs : List F) (c c' : Collection α),
    Collection.setFieldsLoop c i ns vs = some c' → c.Inv ops →
    c'.Inv ops ∧ ∃ t, c'.fieldMap = c.fieldMap ++ t := by
  intro ns
  induction ns with
  | nil =>
      intro vs c c' h hc
      simp only [Collection.setFieldsLoop] at h
      cases h
      exact ⟨hc, ⟨[], by simp⟩⟩
  | cons f ns ih =>
      intro vs c c' h hc
      cases vs with
      | nil => simp [Collection.setFieldsLoop] at h
      | cons v vs =>
          simp only [Collection.setFieldsLoop] at h
          obtain ⟨hinv, t1, ht1⟩ := setField_inv ops c i f v hc
          obtain ⟨hinv', t2, ht2⟩ := ih vs _ c' h hinv
          exact ⟨hinv', ⟨t1 ++ t2, by rw [ht2, ht1, List.append_assoc]⟩⟩

theorem replaceOrInsert_inv {α : Type} (ops : ObjectOps α) (c : Collection α) (i : String)
    (obj : α) (fn : Option (List String)) (vs : List F)
    (q : Option α × List F × List F × Collection α)
    (h : c.ReplaceOrInsert ops i obj fn vs = some q) (hc : c.Inv ops) :
    q.2.2.2.Inv ops ∧ ∃ t, q.2.2.2.fieldMap = c.fieldMap ++ t := by
  obtain ⟨hinv1, hfm1, hnone1⟩ := remove_inv ops c i hc
  obtain ⟨hinv2, hfm2, hget2⟩ := insert_inv ops (c.remove ops i).2 i obj hinv1 hnone1
  simp only [Collection.ReplaceOrInsert] at h
  rcases hro : (c.remove ops i).1 with _ | old
  all_goals rw [hro] at h
  · -- fresh insert: the new item keeps its empty field vector before the field writes
    by_cases hdir : fn = none ∧ vs.length > 0
    · rw [if_pos hdir] at h
      simp only [hget2, Option.map_some', Option.getD_some] at h
      cases h
      refine ⟨?_, ?_⟩
      · exact (withFields_inv ops _ i _ vs _ hget2 hinv2 (by simp)).imp id id
      · exact ⟨[], by simp [Collection.withFields, hfm2, hfm1]⟩
    · rw [if_neg hdir] at h
      rcases hloop : Collection.setFieldsLoop ((c.remove ops i).2.insert ops i obj).2 i
          (fn.getD []) vs with _ | c4
      all_goals rw [hloop] at h
      · cases h
      · simp only [Option.some.injEq] at h
        obtain ⟨hinv4, t, ht⟩ := setFieldsLoop_inv ops i (fn.getD []) vs _ c4 hloop hinv2
        subst h
        exact ⟨hinv4, ⟨t, by rw [ht, hfm2, hfm1]⟩⟩
  · -- replaced item: the new item adopts the old field vector first
    have hget3 : btGet ((((c.remove ops i).2.insert ops i obj).2.withFields i
        old.fields).items) i = some { id := i, object := obj, fields := old.fields } :=
      btGet_setItemFields _ i _ old.fields hget2
    have hinv3 : Collection.Inv ops
        { ((c.remove ops i).2.insert ops i obj).2.withFields i old.fields with
            weight := (((c.remove ops i).2.insert ops i obj).2).weight
              + 8 * (old.fields.length : Int) } :=
      withFields_inv ops _ i _ old.fields _ hget2 hinv2 (by simp)
    by_cases hdir : fn = none ∧ vs.length > 0
    · rw [if_pos hdir] at h
      simp only [hget3, Option.map_some', Option.getD_some] at h
      cases h
      refine ⟨?_, ?_⟩
      · exact withFields_inv ops _ i _ vs _ hget3 hinv3 rfl
      · exact ⟨[], by simp [Collection.withFields, hfm2, hfm1]⟩
    · rw [if_neg hdir] at h
      rcases hloop : Collection.setFieldsLoop
          { ((c.remove ops i).2.insert ops i obj).2.withFields i old.fields with
              weight := (((c.remove ops i).2.insert ops i obj).2).weight
                + 8 * (old.fields.length : Int) } i (fn.getD []) vs with _ | c4
      all_goals rw [hloop] at h
      · cases h
      · simp only [Option.some.injEq] at h
        obtain ⟨hinv4, t, ht⟩ := setFieldsLoop_inv ops i (fn.getD []) vs _ c4 hloop hinv3
        subst h
        exact ⟨hinv4, ⟨t, by rw [ht]; simp [Collection.withFields, hfm2, hfm1]⟩⟩

theorem decodeRows_inv {α : Type} (ops : ObjectOps α) (parse : String → Except String α)
    (fields : Option (List String)) :
    ∀ (rows : List Row) (c : Collection α) (q : Except String Unit × Collection α),
    Collection.decodeRows ops parse fields c rows = some q → c.Inv ops →
    q.2.Inv ops ∧ ∃ t, q.2.fieldMap = c.fieldMap ++ t := by
  intro rows
  induction rows with
  | nil =>
      intro c q h hc
      simp only [Collection.decodeRows] at h
      cases h
      exact ⟨hc, ⟨[], by simp⟩⟩
  | cons r rest ih =>
      intro c q h hc
      simp only [Collection.decodeRows] at h
      rcases hp : parse r.obj with e | obj
      all_goals simp only [hp] at h
      · cases h
        exact ⟨hc, ⟨[], by simp⟩⟩
      · rcases hri : c.ReplaceOrInsert ops r.id obj fields r.values with _ | q1
        all_goals simp only [hri] at h
        · cases h
        · obtain ⟨hinv1, t1, ht1⟩ := replaceOrInsert_inv ops c r.id obj fields r.values q1 hri hc
          obtain ⟨hinv2, t2, ht2⟩ := ih q1.2.2.2 q h hinv1
          exact ⟨hinv2, ⟨t1 ++ t2, by rw [ht2, ht1, List.append_assoc]⟩⟩

theorem unmarshal_inv {α : Type} (ops : ObjectOps α) (parse : String → Except String α)
    (c : Collection α) (d : Doc) (q : Except String Unit × Collection α)
    (h : c.UnmarshalJSON ops parse d = some q) (hc : c.Inv ops) :
    q.2.Inv ops ∧ ∃ t, q.2.fieldMap = c.fieldMap ++ t := by
  cases d with
  | empty => cases h; exact ⟨hc, ⟨[], by simp⟩⟩
  | malformed => cases h; exact ⟨hc, ⟨[], by simp⟩⟩
  | ok rows fields => exact decodeRows_inv ops parse fields rows c q h hc

theorem removePub_state {α : Type} (ops : ObjectOps α) (c : Collection α) (i : String) :
    (c.Remove ops i).2.2.2 = (c.remove ops i).2 := by
  rcases hrm : c.remove ops i with ⟨o, c'⟩
  rcases o with _ | it
  all_goals simp [Collection.Remove, hrm]

theorem setFieldPub_state {α : Type} (c : Collection α) (i field : String) (v : F) :
    (c.SetField i field v).2.2.2.2 = (c.setField i field v).2
      ∨ (c.SetField i field v).2.2.2.2 = c := by
  rcases hg : btGet c.items i with _ | it
  · right
    simp [Collection.SetField, hg]
  · left
    simp only [Collection.SetField, hg]
    rcases hg2 : btGet (c.setField i field v).2.items i with _ | it2
    all_goals simp [hg2]

theorem step_inv {α : Type} (ops : ObjectOps α) (parse : String → Except String α)
    (c c' : Collection α) (h : Collection.Step ops parse c c') (hc : c.Inv ops) :
    c'.Inv ops ∧ ∃ t, c'.fieldMap = c.fieldMap ++ t := by
  cases h with
  | replaceOrInsert i obj fn vs q hq => exact replaceOrInsert_inv ops c i obj fn vs q hq hc
  | removeStep i =>
      rw [removePub_state]
      obtain ⟨hinv, hfm, _⟩ := remove_inv ops c i hc
      exact ⟨hinv, ⟨[], by simp [hfm]⟩⟩
  | setFieldStep i field v =>
      rcases setFieldPub_state c i field v with he | he
      all_goals rw [he]
      · exact setField_inv ops c i field v hc
      · exact ⟨hc, ⟨[], by simp⟩⟩
  | decodeStep d q hq => exact unmarshal_inv ops parse c d q hq hc

theorem new_inv {α : Type} (ops : ObjectOps α) : (Collection.New (α := α)).Inv ops := by
  refine ⟨⟨?_, ?_, ?_⟩, ?_, ?_, ?_⟩ <;> simp [Collection.New]

theorem reachable_inv {α : Type} (ops : ObjectOps α) (parse : String → Except String α)
    (c : Collection α) (h : Collection.Reachable ops parse c) : c.Inv ops := by
  induction h with
  | new => exact new_inv ops
  | step c c' hc hs ih => exact (step_inv ops parse c c' hs ih).1

theorem fieldArrAux :
    ∀ (fm : List (String × Nat)) (s : Nat),
    fm.map Prod.snd = List.range' s fm.length →
    (List.range' s fm.length).map
        (fun k => (((fm.find? fun e => e.2 == k).map fun e => e.1).getD ""))
      = fm.map Prod.fst := by
  intro fm
  induction fm with
  | nil => intro s _; rfl
  | cons e rest ih =>
      intro s hs
      simp only [List.map_cons, List.length_cons, List.range'_succ] at hs ⊢
      obtain ⟨he, hrest⟩ : e.2 = s ∧ rest.map Prod.snd = List.range' (s + 1) rest.length := by
        have h1 := congrArg List.head? hs
        have h2 := congrArg List.tail hs
        simp at h1 h2
        exact ⟨h1, h2⟩
      rw [List.cons.injEq]
      constructor
      · rw [List.find?_cons_of_pos _ (by simp [he])]
        rfl
      · have hcong : (List.range' (s + 1) rest.length).map
            (fun k => ((((e :: rest).find? fun x => x.2 == k).map fun x => x.1).getD ""))
            = (List.range' (s + 1) rest.length).map
                (fun k => (((rest.find? fun x => x.2 == k).map fun x => x.1).getD "")) := by
          apply List.map_congr_left
          intro k hk
          have hks : s + 1 ≤ k := (List.mem_range'_1.mp hk).1
          rw [List.find?_cons_of_neg _ (by
            simp only [he, beq_iff_eq]
            omega)]
        rw [hcong, ih (s + 1) hrest]

theorem fieldArr_eq_keys {α : Type} (c : Collection α)
    (h : c.fieldMap.map Prod.snd = List.range c.fieldMap.length) :
    c.FieldArr = c.fieldMap.map Prod.fst := by
  have hlen : c.fieldMap.length = (c.fieldMap.map Prod.snd).length := by simp
  rw [Collection.FieldArr, List.range_eq_range' c.fieldMap.length]
  exact fieldArrAux c.fieldMap 0 (by rw [h, List.range_eq_range' c.fieldMap.length])

theorem slot_entry_get {fm : List (String × Nat)}
    (h : fm.map Prod.snd = List.range fm.length)
    (e : String × Nat) (he : e ∈ fm) : fm.get? e.2 = some e := by
  obtain ⟨idx, hidx⟩ := List.mem_iff_get?.mp he
  have hlt : idx < fm.length := by
    rcases List.get?_eq_some.mp hidx with ⟨hl, _⟩
    exact hl
  have h2 : (fm.map Prod.snd).get? idx = some e.2 := by
    rw [List.get?_map, hidx]
    rfl
  rw [h, List.get?_range (by simpa using hlt)] at h2
  have : e.2 = idx := by simpa using h2.symm
  rw [this, hidx]

/-- C1: for every reachable collection state, after every public mutation,
Count equals objects plus nobjects and equals the number of entries of the
id-ordered btree, points is the sum of the position counts of the stored
items, and weight is the sum over the stored items of the object weight
plus the id length plus eight bytes per field slot. -/
theorem c1_counter_invariants {α : Type} (ops : ObjectOps α)
    (parse : String → Except String α) (c : Collection α)
    (h : Collection.Reachable ops parse c) :
    c.Count = c.objects + c.nobjects
      ∧ c.Count = (c.items.length : Int)
      ∧ c.points = (c.items.map fun it => ((ops.positionCount it.object : Int))).sum
      ∧ c.weight = (c.items.map fun it => (ops.weight it.object : Int)
          + (it.id.length : Int) + 8 * (it.fields.length : Int)).sum := by
  obtain ⟨⟨h1, h2, h3⟩, _⟩ := reachable_inv ops parse c h
  exact ⟨rfl, h1, h2, h3⟩

/-- Bounding box used by the concrete witness states. -/
def bb0 : BBox :=
  { min := { x := 0, y := 0, z := 0 }, max := { x := 0, y := 0, z := 0 } }

/-- Parser used by the concrete witness states: wraps the input bytes in a
geometry leaf whose JSON is the input, so re-encoding returns the bytes. -/
def parseGeom : String → Except String GeoObject :=
  fun s => Except.ok (GeoObject.geom 0 0 bb0 s)

/-- Result of one ReplaceOrInsert on the empty collection: the concrete
reachable state shared by the witnesses. -/
def q0 : Option GeoObject × List F × List F × Collection GeoObject :=
  (Collection.New.ReplaceOrInsert geoOps "a" (GeoObject.geom 2 3 bb0 "j")
      (some ["f"]) [(5 : F)]).getD (none, [], [], Collection.New)

theorem q0_step : Collection.New.ReplaceOrInsert geoOps "a" (GeoObject.geom 2 3 bb0 "j")
    (some ["f"]) [(5 : F)] = some q0 := by decide

theorem q0_reachable : Collection.Reachable geoOps parseGeom q0.2.2.2 :=
  Collection.Reachable.step Collection.New q0.2.2.2 Collection.Reachable.new
    (Collection.Step.replaceOrInsert Collection.New "a" (GeoObject.geom 2 3 bb0 "j")
      (some ["f"]) [(5 : F)] q0 q0_step)

/-- Witness for C1 at a concrete reachable one-item state. -/
theorem c1_witness :
    Collection.Reachable geoOps parseGeom q0.2.2.2
      ∧ (q0.2.2.2.Count = q0.2.2.2.objects + q0.2.2.2.nobjects
        ∧ q0.2.2.2.Count = (q0.2.2.2.items.length : Int)
        ∧ q0.2.2.2.points
            = (q0.2.2.2.items.map fun it => ((geoOps.positionCount it.object : Int))).sum
        ∧ q0.2.2.2.weight = (q0.2.2.2.items.map fun it => (geoOps.weight it.object : Int)
            + (it.id.length : Int) + 8 * (it.fields.length : Int)).sum) :=
  ⟨q0_reachable, c1_counter_invariants geoOps parseGeom q0.2.2.2 q0_reachable⟩

/-- C8: for every reachable state, the field registry is a bijection onto
the slot range, FieldArr has the registry size and its element at position
k is the name holding slot k, and every public mutation only appends to the
registry, so the slot assigned to a name is the position of its first
appearance and is never reused or renumbered. -/
theorem c8_slot_registry {α : Type} (ops : ObjectOps α)
    (parse : String → Except String α) (c : Collection α)
    (h : Collection.Reachable ops parse c) :
    c.fieldMap.map Prod.snd = List.range c.fieldMap.length
      ∧ (c.fieldMap.map Prod.fst).Nodup
      ∧ c.FieldArr.length = c.fieldMap.length
      ∧ (∀ e ∈ c.fieldMap, c.FieldArr.get? e.2 = some e.1)
      ∧ (∀ c', Collection.Step ops parse c c' → ∃ t, c'.fieldMap = c.fieldMap ++ t) := by
  obtain ⟨_, _, hrange, hnodk⟩ := reachable_inv ops parse c h
  have harr : c.FieldArr = c.fieldMap.map Prod.fst := fieldArr_eq_keys c hrange
  refine ⟨hrange, hnodk, by rw [harr]; simp, ?_, ?_⟩
  · intro e he
    rw [harr, List.get?_map, slot_entry_get hrange e he]
    rfl
  · intro c' hs
    exact (step_inv ops parse c c' hs (reachable_inv ops parse c h)).2

/-- Witness for C8 at a concrete reachable state with one registry entry. -/
theorem c8_witness :
    Collection.Reachable geoOps parseGeom q0.2.2.2
      ∧ (q0.2.2.2.fieldMap.map Prod.snd = List.range q0.2.2.2.fieldMap.length
        ∧ (q0.2.2.2.fieldMap.map Prod.fst).Nodup
        ∧ q0.2.2.2.FieldArr.length = q0.2.2.2.fieldMap.length
        ∧ (∀ e ∈ q0.2.2.2.fieldMap, q0.2.2.2.FieldArr.get? e.2 = some e.1)
        ∧ (∀ c', Collection.Step geoOps parseGeom q0.2.2.2 c'
            → ∃ t, c'.fieldMap = q0.2.2.2.fieldMap ++ t)) :=
  ⟨q0_reachable, c8_slot_registry geoOps parseGeom q0.2.2.2 q0_reachable⟩

theorem getD_replicate_zero : ∀ (k j : Nat), (List.replicate k (0 : F)).getD j 0 = 0 := by
  intro k
  induction k with
  | zero => intro j; simp [List.getD]
  | succ n ih =>
      intro j
      cases j with
      | zero => simp [List.replicate]
      | succ j => simpa [List.replicate] using ih j

theorem getD_append_left : ∀ (l₁ l₂ : List F) (j : Nat), j < l₁.length →
    (l₁ ++ l₂).getD j 0 = l₁.getD j 0 := by
  intro l₁
  induction l₁ with
  | nil => intro l₂ j h; simp at h
  | cons a l ih =>
      intro l₂ j h
      cases j with
      | zero => simp
      | succ j =>
          simp only [List.cons_append, List.getD_cons_succ]
          exact ih l₂ j (by simpa using h)

theorem getD_append_right : ∀ (l₁ l₂ : List F) (j : Nat), l₁.length ≤ j →
    (l₁ ++ l₂).getD j 0 = l₂.getD (j - l₁.length) 0 := by
  intro l₁
  induction l₁ with
  | nil => intro l₂ j h; simp
  | cons a l ih =>
      intro l₂ j h
      cases j with
      | zero => simp at h
      | succ j =>
          simp only [List.cons_append, List.getD_cons_succ, List.length_cons]
          rw [ih l₂ j (by simpa using h)]
          congr 1
          omega

theorem getD_out_of_range : ∀ (l : List F) (j : Nat), l.length ≤ j → l.getD j 0 = 0 := by
  intro l
  induction l with
  | nil => intro j _; simp [List.getD]
  | cons a l ih =>
      intro j h
      cases j with
      | zero => simp at h
      | succ j => simpa using ih j (by simpa using h)

theorem extendTo_getD (fs : List F) (idx j : Nat) :
    (extendTo fs idx).getD j 0 = fs.getD j 0 := by
  by_cases h : j < fs.length
  · exact getD_append_left fs _ j h
  · rw [extendTo, getD_append_right fs _ j (by omega), getD_replicate_zero,
      getD_out_of_range fs j (by omega)]

theorem extendTo_length (fs : List F) (idx : Nat) :
    (extendTo fs idx).length = max (idx + 1) fs.length := by
  rw [extendTo, List.length_append, List.length_replicate]
  omega

theorem extendTo_idx_lt (fs : List F) (idx : Nat) : idx < (extendTo fs idx).length := by
  rw [extendTo_length]
  omega

theorem getD_set_self : ∀ (l : List F) (i : Nat) (v : F), i < l.length →
    (l.set i v).getD i 0 = v := by
  intro l
  induction l with
  | nil => intro i v h; simp at h
  | cons a l ih =>
      intro i v h
      cases i with
      | zero => simp
      | succ i =>
          simp only [List.set_cons_succ, List.getD_cons_succ]
          exact ih i v (by simpa using h)

theorem getD_set_ne : ∀ (l : List F) (i j : Nat) (v : F), i ≠ j →
    (l.set i v).getD j 0 = l.getD j 0 := by
  intro l
  induction l with
  | nil => intro i j v _; simp
  | cons a l ih =>
      intro i j v hne
      cases i with
      | zero =>
          cases j with
          | zero => exact absurd rfl hne
          | succ j => simp
      | succ i =>
          cases j with
          | zero => simp
          | succ j =>
              simp only [List.set_cons_succ, List.getD_cons_succ]
              exact ih i j v (by omega)

theorem lookupSlot_append_self : ∀ (fm : List (String × Nat)) (f : String) (k : Nat),
    lookupSlot fm f = none → lookupSlot (fm ++ [(f, k)]) f = some k := by
  intro fm f k
  induction fm with
  | nil => intro _; simp [lookupSlot]
  | cons e rest ih =>
      intro h
      simp only [lookupSlot] at h ⊢
      by_cases he : e.1 = f
      · rw [if_pos he] at h; cases h
      · rw [if_neg he] at h ⊢
        exact ih h

/-- C7: for SetField on an id that is present, afterwards the registry has
a slot for the name, the field vector of the item is zero-extended up to
and including that slot, the slot holds the value, the call reports ok and
returns the object, and the updated flag is true iff the prior slot value,
a previously absent slot counting as zero, differed from the value. -/
theorem c7_setField_postcondition {α : Type} (c : Collection α) (i field : String) (v : F)
    (it : ItemT α) (idx : Nat) (h : btGet c.items i = some it)
    (hidx : idx = (lookupSlot c.fieldMap field).getD c.fieldMap.length) :
    (c.SetField i field v).2.2.2.1 = true
      ∧ (c.SetField i field v).1 = some it.object
      ∧ lookupSlot (c.SetField i field v).2.2.2.2.fieldMap field = some idx
      ∧ (∃ fs', (c.SetField i field v).2.1 = some fs'
          ∧ fs'.length = max (idx + 1) it.fields.length
          ∧ fs'.getD idx 0 = v
          ∧ (∀ j, j ≠ idx → fs'.getD j 0 = it.fields.getD j 0)
          ∧ ((c.SetField i field v).2.2.1 = true ↔ ¬ it.fields.getD idx 0 = v)) := by
  have hbody : c.setField i field v
      = ((extendTo it.fields idx).getD idx 0 != v,
         { c.withFields i ((extendTo it.fields idx).set idx v) with
             fieldMap := (match lookupSlot c.fieldMap field with
               | some k => ((k : Nat), c.fieldMap)
               | none => (c.fieldMap.length, c.fieldMap ++ [(field, c.fieldMap.length)])).2
             weight := c.weight - 8 * (it.fields.length : Int)
               + 8 * (((extendTo it.fields idx).set idx v).length : Int) }) := by
    rcases hsl : lookupSlot c.fieldMap field with _ | k
    · rw [hsl] at hidx
      simp only [Option.getD_none] at hidx
      subst hidx
      simp only [Collection.setField, hsl, h]
      try rfl
    · rw [hsl] at hidx
      simp only [Option.getD_some] at hidx
      subst hidx
      simp only [Collection.setField, hsl, h]
      try rfl
  have hget2 : btGet (c.setField i field v).2.items i
      = some { it with fields := (extendTo it.fields idx).set idx v } := by
    rw [hbody]
    exact btGet_setItemFields c.items i it _ h
  have hfm2 : lookupSlot (c.setField i field v).2.fieldMap field = some idx := by
    rw [hbody]
    rcases hsl : lookupSlot c.fieldMap field with _ | k
    · rw [hsl] at hidx
      simp only [Option.getD_none] at hidx
      subst hidx
      exact lookupSlot_append_self c.fieldMap field c.fieldMap.length hsl
    · rw [hsl] at hidx
      simp only [Option.getD_some] at hidx
      subst hidx
      exact hsl
  have hupd : (c.setField i field v).1 = ((extendTo it.fields idx).getD idx 0 != v) := by
    rw [hbody]
  simp only [Collection.SetField, h, hget2]
  refine ⟨by trivial, by trivial, hfm2, ⟨(extendTo it.fields idx).set idx v, by trivial, ?_, ?_, ?_, ?_⟩⟩
  · rw [List.length_set, extendTo_length]
  · exact getD_set_self _ idx v (extendTo_idx_lt it.fields idx)
  · intro j hj
    rw [getD_set_ne _ idx j v (fun hc => hj hc.symm), extendTo_getD]
  · rw [hupd, extendTo_getD]
    constructor
    · intro hb
      exact bne_iff_ne.mp hb
    · intro hne
      exact bne_iff_ne.mpr hne

/-- Item stored in the concrete witness state q0. -/
def itW : ItemT GeoObject :=
  { id := "a", object := GeoObject.geom 2 3 bb0 "j", fields := [(5 : F)] }

/-- Witness for C7 at a concrete state: writing a fresh field name into the
one-item collection produced by one ReplaceOrInsert. -/
theorem c7_witness :
    (btGet (q0.2.2.2 : Collection GeoObject).items "a" = some itW
      ∧ (1 : Nat) = (lookupSlot q0.2.2.2.fieldMap "g").getD q0.2.2.2.fieldMap.length)
      ∧ ((q0.2.2.2.SetField "a" "g" (7 : F)).2.2.2.1 = true
        ∧ (q0.2.2.2.SetField "a" "g" (7 : F)).1 = some itW.object
        ∧ lookupSlot (q0.2.2.2.SetField "a" "g" (7 : F)).2.2.2.2.fieldMap "g" = some 1
        ∧ (∃ fs', (q0.2.2.2.SetField "a" "g" (7 : F)).2.1 = some fs'
            ∧ fs'.length = max (1 + 1) itW.fields.length
            ∧ fs'.getD 1 0 = (7 : F)
            ∧ (∀ j, j ≠ 1 → fs'.getD j 0 = itW.fields.getD j 0)
            ∧ ((q0.2.2.2.SetField "a" "g" (7 : F)).2.2.1 = true
                ↔ ¬ itW.fields.getD 1 0 = (7 : F)))) :=
  ⟨⟨by decide, by decide⟩,
    c7_setField_postcondition q0.2.2.2 "a" "g" 7 itW 1 (by decide) (by decide)⟩

/-- C10: removing an id that is absent from the collection returns nil
object, nil fields and found false, and leaves the collection state, all
three indexes, the registry and every counter, unchanged. -/
theorem c10_remove_absent {α : Type} (ops : ObjectOps α) (c : Collection α) (i : String)
    (h : btGet c.items i = none) :
    c.Remove ops i = (none, none, false, c) := by
  have hd : btDelete c.items i = (none, c.items) := btDelete_eq_none c.items i h
  simp only [Collection.Remove, Collection.remove, hd]

/-- Witness for C10: removing an absent id from the one-item state. -/
theorem c10_witness :
    btGet (q0.2.2.2 : Collection GeoObject).items "b" = none
      ∧ q0.2.2.2.Remove geoOps "b" = (none, none, false, q0.2.2.2) :=
  ⟨by decide, c10_remove_absent geoOps q0.2.2.2 "b" (by decide)⟩

/-- Counterexample for C6: a well-formed document whose top-level fields
array is missing decodes without an error, contradicting the claim that it
is an error. -/
theorem c6_counterexample :
    (Collection.New.UnmarshalJSON geoOps parseGeom
        (Doc.ok [{ id := "a", obj := "j", values := [(4 : F)] }] none)).map Prod.fst
      = some (Except.ok ()) := by rfl

/-- C6 amended: decode errors on nil or empty input and on bytes the JSON
layer rejects, but a missing top-level fields array is not an error: the
rows are replayed with a nil field-name list. -/
theorem c6_amended {α : Type} (ops : ObjectOps α) (parse : String → Except String α)
    (c : Collection α) :
    (c.UnmarshalJSON ops parse Doc.empty).map Prod.fst
        = some (Except.error "No bytes were input")
      ∧ (∃ e, (c.UnmarshalJSON ops parse Doc.malformed).map Prod.fst
          = some (Except.error e))
      ∧ (Collection.New.UnmarshalJSON geoOps parseGeom
          (Doc.ok [{ id := "a", obj := "j", values := [(4 : F)] }] none)).map Prod.fst
        = some (Except.ok ()) := by
  refine ⟨rfl, ⟨"invalid json", rfl⟩, by rfl⟩

/-- Counterexample for C9: a Feature without geometry has IsGeometry true
per feature.go lines 172 to 175, so insert routes it into the spatial index
D and not into the value-ordered index C, contradicting the claim. -/
theorem c9_counterexample :
    GeoObject.IsGeometry (GeoObject.feature GeoObject.null none "") = true
      ∧ (Collection.New.insert geoOps "a" (GeoObject.feature GeoObject.null none "")).2.index
        = [{ id := "a", object := GeoObject.feature GeoObject.null none "", fields := [] }]
      ∧ (Collection.New.insert geoOps "a" (GeoObject.feature GeoObject.null none "")).2.values
        = [] := by decide

/-- C9 amended: insert routes by the IsGeometry flag: a geometry object
goes into the spatial index D and leaves C untouched, a non-geometry
object goes into the value-ordered index C and leaves D untouched; every
Feature, with or without geometry, reports IsGeometry true, and the String
variant reports false. -/
theorem c9_routing {α : Type} (ops : ObjectOps α) (c : Collection α) (i : String) (obj : α) :
    ((c.insert ops i obj).2.index
        = if ops.isGeometry obj then c.index ++ [{ id := i, object := obj, fields := [] }]
          else c.index)
      ∧ ((c.insert ops i obj).2.values
        = if ops.isGeometry obj then c.values
          else valInsert ops c.values { id := i, object := obj, fields := [] })
      ∧ (∀ g bb p, GeoObject.IsGeometry (GeoObject.feature g bb p) = true)
      ∧ (∀ s, GeoObject.IsGeometry (GeoObject.str s) = false) := by
  refine ⟨?_, ?_, fun g bb p => rfl, fun s => rfl⟩
  all_goals by_cases hg : ops.isGeometry obj
  · simp only [Collection.insert, if_pos hg]
  · simp only [Collection.insert, if_neg hg]
  · simp only [Collection.insert, if_pos hg]
  · simp only [Collection.insert, if_neg hg]

theorem zip_fst_snd {β γ : Type} : ∀ (l : List (β × γ)), (l.map Prod.fst).zip (l.map Prod.snd) = l := by
  intro l
  induction l with
  | nil => rfl
  | cons e rest ih => simp [ih]

theorem zip_map_fst {β γ : Type} : ∀ (l₁ : List β) (l₂ : List γ), l₁.length = l₂.length →
    (l₁.zip l₂).map Prod.fst = l₁ := by
  intro l₁
  induction l₁ with
  | nil => intro l₂ _; rfl
  | cons a l ih =>
      intro l₂ h
      cases l₂ with
      | nil => simp at h
      | cons b l₂ => simp [ih l₂ (by simpa using h)]

theorem zip_map_snd {β γ : Type} : ∀ (l₁ : List β) (l₂ : List γ), l₁.length = l₂.length →
    (l₁.zip l₂).map Prod.snd = l₂ := by
  intro l₁
  induction l₁ with
  | nil => intro l₂ h; cases l₂ with
      | nil => rfl
      | cons b l₂ => simp at h
  | cons a l ih =>
      intro l₂ h
      cases l₂ with
      | nil => simp at h
      | cons b l₂ => simp [ih l₂ (by simpa using h)]

theorem lookupSlot_zip_none : ∀ (l₁ : List String) (l₂ : List Nat) (t : String),
    t ∉ l₁ → lookupSlot (l₁.zip l₂) t = none := by
  intro l₁
  induction l₁ with
  | nil => intro l₂ t _; simp [lookupSlot]
  | cons a l ih =>
      intro l₂ t ht
      cases l₂ with
      | nil => simp [lookupSlot]
      | cons b l₂ =>
          simp only [List.zip_cons_cons, lookupSlot]
          rw [if_neg (by
            intro hc
            exact ht (by rw [hc]; exact List.mem_cons_self _ _))]
          exact ih l₂ t (fun hm => ht (List.mem_cons.mpr (Or.inr hm)))

theorem lookupSlot_zip_mid : ∀ (done rest : List String) (t : String) (s : Nat),
    t ∉ done →
    lookupSlot ((done ++ t :: rest).zip
        (List.range' s (done ++ t :: rest).length)) t = some (s + done.length) := by
  intro done
  induction done with
  | nil =>
      intro rest t s _
      simp [lookupSlot, List.range'_succ]
  | cons d done' ih =>
      intro rest t s ht
      simp only [List.cons_append, List.length_cons, List.range'_succ, List.zip_cons_cons,
        lookupSlot]
      rw [if_neg (by
        intro hc
        exact ht (by rw [← hc]; exact List.mem_cons_self _ _))]
      have h2 := ih rest t (s + 1) (fun hm => ht (List.mem_cons.mpr (Or.inr hm)))
      have h3 : s + 1 + done'.length = s + (done'.length + 1) := by omega
      rw [h3] at h2
      exact h2

theorem setItemFields_comp {α : Type} (l : List (ItemT α)) (i : String) (a b : List F) :
    setItemFields (setItemFields l i a) i b = setItemFields l i b := by
  induction l with
  | nil => rfl
  | cons x rest ih =>
      simp only [setItemFields, List.map_cons] at ih ⊢
      by_cases hx : x.id = i
      · rw [if_pos hx]
        simp only [if_pos hx]
        rw [ih]
      · rw [if_neg hx]
        simp only [if_neg hx]
        rw [ih]

theorem setItemFields_self {α : Type} (l : List (ItemT α)) (i : String) (it : ItemT α)
    (hget : btGet l i = some it) (hn : (l.map fun x => x.id).Nodup) :
    setItemFields l i it.fields = l := by
  obtain ⟨l₁, l₂, e1, e2⟩ := setItemFields_split l i it it.fields hget hn
  rw [e2, e1]

theorem set_append_last : ∀ (fs : List F) (x v : F), (fs ++ [x]).set fs.length v = fs ++ [v] := by
  intro fs
  induction fs with
  | nil => intro x v; rfl
  | cons a l ih =>
      intro x v
      simp only [List.cons_append, List.length_cons, List.set_cons_succ]
      rw [ih]

theorem extendTo_exact (fs : List F) : extendTo fs fs.length = fs ++ [0] := by
  rw [extendTo]
  congr 1
  simp

theorem setField_eq {α : Type} (c : Collection α) (i field : String) (v : F) (it : ItemT α)
    (idx : Nat) (fm' : List (String × Nat)) (h : btGet c.items i = some it)
    (hp : (match lookupSlot c.fieldMap field with
           | some k => ((k : Nat), c.fieldMap)
           | none => (c.fieldMap.length, c.fieldMap ++ [(field, c.fieldMap.length)]))
          = (idx, fm')) :
    c.setField i field v
      = ((extendTo it.fields idx).getD idx 0 != v,
         { c.withFields i ((extendTo it.fields idx).set idx v) with
             fieldMap := fm'
             weight := c.weight - 8 * (it.fields.length : Int)
               + 8 * (((extendTo it.fields idx).set idx v).length : Int) }) := by
  simp only [Collection.setField, h, hp]

theorem setFieldsLoop_run {α : Type} (i : String) :
    ∀ (todo : List String) (vsto : List F) (done : List String) (c : Collection α)
      (it : ItemT α),
    (done ++ todo).Nodup →
    (c.fieldMap = done.zip (List.range done.length)
      ∨ c.fieldMap = (done ++ todo).zip (List.range (done ++ todo).length)) →
    btGet c.items i = some it →
    ((c.items.map fun x => x.id).Nodup) →
    it.fields.length = done.length →
    vsto.length = todo.length →
    ∃ c', Collection.setFieldsLoop c i todo vsto = some c'
      ∧ c'.items = setItemFields c.items i (it.fields ++ vsto)
      ∧ c'.fieldMap = (done ++ todo).zip (List.range (done ++ todo).length) := by
  intro todo
  induction todo with
  | nil =>
      intro vsto done c it hnd hmap hget hids hflen hvlen
      cases vsto with
      | nil =>
          refine ⟨c, rfl, ?_, ?_⟩
          · rw [List.append_nil, setItemFields_self c.items i it hget hids]
          · rcases hmap with hm | hm
            · rw [hm]
              simp
            · rw [hm]
      | cons v vs => simp at hvlen
  | cons t todo' ih =>
      intro vsto done c it hnd hmap hget hids hflen hvlen
      cases vsto with
      | nil => simp at hvlen
      | cons v vs =>
          have hnotdone : t ∉ done := by
            rw [List.nodup_append] at hnd
            intro hmem
            exact hnd.2.2 hmem (List.mem_cons_self _ _)
          have hfs2gen : (extendTo it.fields done.length).set done.length v
              = it.fields ++ [v] := by
            rw [← hflen, extendTo_exact, set_append_last]
          rcases hmap with hm | hm
          · -- the slot for t does not exist yet: it is appended at position done.length
            have hsl : lookupSlot c.fieldMap t = none := by
              rw [hm]
              exact lookupSlot_zip_none done _ t hnotdone
            have hfl : c.fieldMap.length = done.length := by
              rw [hm]
              simp
            have hp : (match lookupSlot c.fieldMap t with
                | some k => ((k : Nat), c.fieldMap)
                | none => (c.fieldMap.length, c.fieldMap ++ [(t, c.fieldMap.length)]))
                = (done.length, c.fieldMap ++ [(t, c.fieldMap.length)]) := by
              rw [hsl, hfl]
            have hsf := setField_eq c i t v it done.length
              (c.fieldMap ++ [(t, c.fieldMap.length)]) hget hp
            rw [hfs2gen] at hsf
            have hni : (c.setField i t v).2.items
                = setItemFields c.items i (it.fields ++ [v]) := by
              rw [hsf]
              rfl
            have hnf : (c.setField i t v).2.fieldMap
                = (done ++ [t]).zip (List.range (done ++ [t]).length) := by
              rw [hsf]
              show c.fieldMap ++ [(t, c.fieldMap.length)]
                  = (done ++ [t]).zip (List.range (done ++ [t]).length)
              rw [hfl, hm]
              rw [show (done ++ [t]).length = done.length + 1 by simp, List.range_succ,
                List.zip_append (by simp)]
              rfl
            have hget2 : btGet (c.setField i t v).2.items i
                = some { it with fields := it.fields ++ [v] } := by
              rw [hni]
              exact btGet_setItemFields c.items i it _ hget
            have hids2 : ((c.setField i t v).2.items.map fun x => x.id).Nodup := by
              rw [hni, setItemFields_ids]
              exact hids
            have hnd2 : ((done ++ [t]) ++ todo').Nodup := by
              rw [← List.append_cons]
              exact hnd
            obtain ⟨c', hrun, hitems, hfm⟩ := ih vs (done ++ [t]) (c.setField i t v).2
              { it with fields := it.fields ++ [v] } hnd2 (Or.inl hnf) hget2 hids2
              (by simp [hflen]) (by simpa using hvlen)
            refine ⟨c', ?_, ?_, ?_⟩
            · simp only [Collection.setFieldsLoop]
              exact hrun
            · rw [hitems, hni, setItemFields_comp]
              congr 1
              simp
            · rw [hfm, ← List.append_cons]
          · -- the slot for t already exists at position done.length
            have hsl : lookupSlot c.fieldMap t = some done.length := by
              rw [hm, List.range_eq_range']
              have := lookupSlot_zip_mid done todo' t 0 hnotdone
              simpa using this
            have hp : (match lookupSlot c.fieldMap t with
                | some k => ((k : Nat), c.fieldMap)
                | none => (c.fieldMap.length, c.fieldMap ++ [(t, c.fieldMap.length)]))
                = (done.length, c.fieldMap) := by
              rw [hsl]
            have hsf := setField_eq c i t v it done.length c.fieldMap hget hp
            rw [hfs2gen] at hsf
            have hni : (c.setField i t v).2.items
                = setItemFields c.items i (it.fields ++ [v]) := by
              rw [hsf]
              rfl
            have hnf : (c.setField i t v).2.fieldMap
                = ((done ++ [t]) ++ todo').zip
                    (List.range ((done ++ [t]) ++ todo').length) := by
              rw [hsf]
              show c.fieldMap = ((done ++ [t]) ++ todo').zip
                  (List.range ((done ++ [t]) ++ todo').length)
              rw [hm, ← List.append_cons]
            have hget2 : btGet (c.setField i t v).2.items i
                = some { it with fields := it.fields ++ [v] } := by
              rw [hni]
              exact btGet_setItemFields c.items i it _ hget
            have hids2 : ((c.setField i t v).2.items.map fun x => x.id).Nodup := by
              rw [hni, setItemFields_ids]
              exact hids
            have hnd2 : ((done ++ [t]) ++ todo').Nodup := by
              rw [← List.append_cons]
              exact hnd
            obtain ⟨c', hrun, hitems, hfm⟩ := ih vs (done ++ [t]) (c.setField i t v).2
              { it with fields := it.fields ++ [v] } hnd2 (Or.inr hnf) hget2 hids2
              (by simp [hflen]) (by simpa using hvlen)
            refine ⟨c', ?_, ?_, ?_⟩
            · simp only [Collection.setFieldsLoop]
              exact hrun
            · rw [hitems, hni, setItemFields_comp]
              congr 1
              simp
            · rw [hfm, ← List.append_cons]

theorem insert_items_char {α : Type} (ops : ObjectOps α) (d : Collection α) (i : String)
    (obj : α) :
    (d.insert ops i obj).2.items = btInsert d.items { id := i, object := obj, fields := [] }
      ∧ (d.insert ops i obj).2.fieldMap = d.fieldMap := by
  by_cases hg : ops.isGeometry obj
  · simp [Collection.insert, if_pos hg]
  · simp [Collection.insert, if_neg hg]

theorem decode_row_step {α : Type} (ops : ObjectOps α) (d : Collection α) (i : String)
    (obj : α) (names : List String) (vs : List F)
    (hfresh : ∀ x ∈ d.items, strLt x.id i = true)
    (hpw : d.items.Pairwise (fun a b => strLt a.id b.id = true))
    (hlen : vs.length = names.length)
    (hmap : d.fieldMap = [] ∨ d.fieldMap = names.zip (List.range names.length))
    (hnodup : names.Nodup) :
    ∃ q, d.ReplaceOrInsert ops i obj (some names) vs = some q
      ∧ q.2.2.2.items = d.items ++ [{ id := i, object := obj, fields := vs }]
      ∧ q.2.2.2.fieldMap = names.zip (List.range names.length) := by
  have hne : ∀ x ∈ d.items, x.id ≠ i := fun x hx => strLt_ne (hfresh x hx)
  have hget0 : btGet d.items i = none := btGet_eq_none_of_forall _ _ hne
  have hd : btDelete d.items i = (none, d.items) := btDelete_eq_none _ _ hget0
  have hrm : d.remove ops i = (none, d) := by
    simp only [Collection.remove, hd]
  obtain ⟨hitems2, hfm2⟩ := insert_items_char ops d i obj
  have happ : btInsert d.items { id := i, object := obj, fields := [] }
      = d.items ++ [{ id := i, object := obj, fields := [] }] :=
    btInsert_append_of_max d.items _ hfresh
  have hget2 : btGet (d.insert ops i obj).2.items i
      = some { id := i, object := obj, fields := [] } := by
    rw [hitems2]
    exact btGet_btInsert_self d.items _
  have hpw2 : (d.insert ops i obj).2.items.Pairwise (fun a b => strLt a.id b.id = true) := by
    rw [hitems2, happ]
    rw [List.pairwise_append]
    refine ⟨hpw, List.pairwise_singleton _ _, ?_⟩
    intro x hx y hy
    rcases List.mem_singleton.mp hy with rfl
    exact hfresh x hx
  have hmap2 : (d.insert ops i obj).2.fieldMap
      = ([] : List String).zip (List.range ([] : List String).length)
      ∨ (d.insert ops i obj).2.fieldMap
        = (([] : List String) ++ names).zip (List.range (([] : List String) ++ names).length) := by
    rw [hfm2]
    rcases hmap with hm | hm
    · left
      rw [hm]
      rfl
    · right
      rw [hm]
      rfl
  obtain ⟨c', hrun, hitemsc, hfmc⟩ := setFieldsLoop_run i names vs []
    (d.insert ops i obj).2 { id := i, object := obj, fields := [] }
    (by simpa using hnodup) hmap2 hget2
    (nodup_ids_of_pairwise hpw2) (by rfl) (by simpa using hlen)
  have happ2 : setItemFields (d.items ++ [{ id := i, object := obj, fields := [] }]) i
        ([] ++ vs)
      = setItemFields d.items i ([] ++ vs)
        ++ setItemFields [{ id := i, object := obj, fields := [] }] i ([] ++ vs) :=
    List.map_append _ _ _
  have hitemsc2 : c'.items = d.items ++ [{ id := i, object := obj, fields := vs }] := by
    rw [hitemsc, hitems2, happ]
    rw [show ({ id := i, object := obj, fields := [] } : ItemT α).fields = [] from rfl]
    rw [happ2, setItemFields_of_absent d.items i _ hne]
    simp [setItemFields]
  simp only [Collection.ReplaceOrInsert, hrm]
  rw [if_neg (by simp)]
  simp only [Option.getD_some]
  rw [hrun]
  refine ⟨_, rfl, hitemsc2, by simpa using hfmc⟩

theorem decode_rows_all {α : Type} (ops : ObjectOps α) (parse : String → Except String α)
    (names : List String) (hnodup : names.Nodup) :
    ∀ (src : List (ItemT α)) (d : Collection α),
    src.Pairwise (fun a b => strLt a.id b.id = true) →
    d.items.Pairwise (fun a b => strLt a.id b.id = true) →
    (∀ x ∈ d.items, ∀ y ∈ src, strLt x.id y.id = true) →
    (∀ it ∈ src, it.fields.length = names.length) →
    (∀ it ∈ src, ∃ a, parse (ops.marshalJSON it.object) = Except.ok a
        ∧ ops.marshalJSON a = ops.marshalJSON it.object) →
    (d.fieldMap = [] ∨ d.fieldMap = names.zip (List.range names.length)) →
    ∃ c', Collection.decodeRows ops parse (some names) d
        (src.map fun x => Row.mk x.id (ops.marshalJSON x.object) x.fields)
      = some (Except.ok (), c')
      ∧ c'.items.map (fun x => (x.id, ops.marshalJSON x.object, x.fields))
          = d.items.map (fun x => (x.id, ops.marshalJSON x.object, x.fields))
            ++ src.map (fun x => (x.id, ops.marshalJSON x.object, x.fields))
      ∧ (src = [] → c' = d)
      ∧ (src ≠ [] → c'.fieldMap = names.zip (List.range names.length)) := by
  intro src
  induction src with
  | nil =>
      intro d _ _ _ _ _ _
      exact ⟨d, rfl, by simp, fun _ => rfl, fun h => absurd rfl h⟩
  | cons it src' ih =>
      intro d hsrc hd hlt hflen hg hmap
      obtain ⟨a, ha1, ha2⟩ := hg it (by simp)
      obtain ⟨q, hq, hqitems, hqfm⟩ := decode_row_step ops d it.id a names it.fields
        (fun x hx => hlt x hx it (by simp)) hd (hflen it (by simp)) hmap hnodup
      rw [List.pairwise_cons] at hsrc
      obtain ⟨hithd, hsrc'⟩ := hsrc
      have hd' : q.2.2.2.items.Pairwise (fun a b => strLt a.id b.id = true) := by
        rw [hqitems, List.pairwise_append]
        refine ⟨hd, List.pairwise_singleton _ _, ?_⟩
        intro x hx y hy
        rcases List.mem_singleton.mp hy with rfl
        exact hlt x hx it (by simp)
      have hlt' : ∀ x ∈ q.2.2.2.items, ∀ y ∈ src', strLt x.id y.id = true := by
        intro x hx y hy
        rw [hqitems] at hx
        rcases List.mem_append.mp hx with hm | hm
        · exact hlt x hm y (List.mem_cons.mpr (Or.inr hy))
        · rcases List.mem_singleton.mp hm with rfl
          exact hithd y hy
      obtain ⟨c', hrec, hproj, hempty, hnempty⟩ := ih q.2.2.2 hsrc' hd' hlt'
        (fun x hx => hflen x (List.mem_cons.mpr (Or.inr hx)))
        (fun x hx => hg x (List.mem_cons.mpr (Or.inr hx)))
        (Or.inr hqfm)
      refine ⟨c', ?_, ?_, fun hc => absurd hc (List.cons_ne_nil _ _), fun _ => ?_⟩
      · simp only [List.map_cons, Collection.decodeRows, ha1, hq]
        exact hrec
      · rw [hproj, hqitems]
        simp only [List.map_append, List.map_cons, List.map_nil]
        rw [ha2, List.append_assoc]
        rfl
      · cases hsrcnil : src' with
        | nil =>
            rw [hsrcnil] at hempty
            rw [hempty rfl, hqfm]
        | cons z zs =>
            apply hnempty
            rw [hsrcnil]
            simp

theorem marshal_char {α : Type} (ops : ObjectOps α) (c : Collection α) (hc : c.Inv ops) :
    (c.MarshalJSON ops).rows
        = c.items.map (fun it => Row.mk it.id (ops.marshalJSON it.object) it.fields)
      ∧ (c.MarshalJSON ops).fields = c.fieldMap.map Prod.fst := by
  obtain ⟨⟨hcnt, _, _⟩, hpw, hrange, _⟩ := hc
  have hcount : c.Count.toNat = c.items.length := by
    rw [Collection.Count, hcnt]
    simp
  constructor
  · simp only [Collection.MarshalJSON, hcount]
    rw [List.take_of_length_le (by simp), Nat.sub_self]
    simp
  · simp only [Collection.MarshalJSON]
    exact fieldArr_eq_keys c hrange

theorem fieldMap_eq_zip {α : Type} (c : Collection α)
    (hrange : c.fieldMap.map Prod.snd = List.range c.fieldMap.length) :
    c.fieldMap = (c.fieldMap.map Prod.fst).zip
        (List.range (c.fieldMap.map Prod.fst).length) := by
  conv_lhs => rw [← zip_fst_snd c.fieldMap]
  rw [hrange]
  congr 2
  simp

/-- C5 amended: for every collection satisfying the structural invariant
whose items all carry a field vector of exactly the registry size, and
whose registry is empty when the collection is empty, and for a parser
that inverts the object encoding, the snapshot encode-decode cycle into a
fresh collection succeeds and is observationally faithful: same Count,
same per-id object bytes, same per-id field vectors, same field-name
order. Without the vector-length proviso the decode loop indexes past the
end of a row value list and panics; without the emptiness proviso a
registry with no items is lost. -/
theorem c5_roundtrip {α : Type} (ops : ObjectOps α) (parse : String → Except String α)
    (c : Collection α) (hc : c.Inv ops)
    (hlen : ∀ it ∈ c.items, it.fields.length = c.fieldMap.length)
    (hemp : c.items = [] → c.fieldMap = [])
    (hg : ∀ it ∈ c.items, ∃ a, parse (ops.marshalJSON it.object) = Except.ok a
        ∧ ops.marshalJSON a = ops.marshalJSON it.object) :
    ∃ c', Collection.UnmarshalJSON ops parse Collection.New
        (Portable.toDoc (c.MarshalJSON ops)) = some (Except.ok (), c')
      ∧ c'.Count = c.Count
      ∧ c'.items.map (fun x => (x.id, ops.marshalJSON x.object, x.fields))
          = c.items.map (fun x => (x.id, ops.marshalJSON x.object, x.fields))
      ∧ c'.FieldArr = c.FieldArr := by
  obtain ⟨hrows, hfields⟩ := marshal_char ops c hc
  obtain ⟨⟨hcnt, _, _⟩, hpw, hrange, hnodk⟩ := hc
  have hnamelen : (c.fieldMap.map Prod.fst).length = c.fieldMap.length := by simp
  obtain ⟨c', hrun, hproj, hempty, hnempty⟩ := decode_rows_all ops parse
    (c.fieldMap.map Prod.fst) hnodk c.items Collection.New hpw
    (by constructor)
    (fun x hx => absurd hx (List.not_mem_nil x))
    (fun it hit => by rw [hlen it hit, hnamelen])
    hg (Or.inl rfl)
  have hdec : Collection.UnmarshalJSON ops parse Collection.New
      (Portable.toDoc (c.MarshalJSON ops)) = some (Except.ok (), c') := by
    show Collection.decodeRows ops parse (some (c.MarshalJSON ops).fields)
        Collection.New (c.MarshalJSON ops).rows = some (Except.ok (), c')
    rw [hrows, hfields]
    exact hrun
  have hprojc : c'.items.map (fun x => (x.id, ops.marshalJSON x.object, x.fields))
      = c.items.map (fun x => (x.id, ops.marshalJSON x.object, x.fields)) := by
    rw [hproj]
    rfl
  have hlen' : c'.items.length = c.items.length := by
    have := congrArg List.length hprojc
    simpa using this
  have hinv' := unmarshal_inv ops parse Collection.New
    (Portable.toDoc (c.MarshalJSON ops)) (Except.ok (), c') hdec (new_inv ops)
  have hcount : c'.Count = c.Count := by
    obtain ⟨⟨hcnt', _, _⟩, _⟩ := hinv'.1
    rw [Collection.Count, Collection.Count, hcnt', hcnt, hlen']
  refine ⟨c', hdec, hcount, hprojc, ?_⟩
  cases hni : c.items with
  | nil =>
      have hfm0 : c.fieldMap = [] := hemp hni
      rw [hni] at hempty
      rw [hempty rfl]
      rw [Collection.FieldArr, Collection.FieldArr, hfm0]
      rfl
  | cons z zs =>
      have hfm' := hnempty (by rw [hni]; exact List.cons_ne_nil _ _)
      have hlenz : (c.fieldMap.map Prod.fst).length
          = (List.range (c.fieldMap.map Prod.fst).length).length := by simp
      have hrange' : c'.fieldMap.map Prod.snd = List.range c'.fieldMap.length := by
        rw [hfm', zip_map_snd _ _ hlenz]
        congr 1
        simp
      rw [fieldArr_eq_keys c' hrange', fieldArr_eq_keys c hrange, hfm',
        zip_map_fst _ _ hlenz]

/-- First item of the C5 counterexample state. -/
def itA : ItemT GeoObject :=
  { id := "a", object := GeoObject.geom 1 1 bb0 "x", fields := [(1 : F), 2] }

/-- Second item of the C5 counterexample state: its field vector is
shorter than the registry. -/
def itB : ItemT GeoObject :=
  { id := "b", object := GeoObject.geom 1 1 bb0 "y", fields := [(3 : F)] }

/-- Intermediate state of the C5 counterexample, after inserting item a
with both field names. -/
def cBad1 : Collection GeoObject :=
  { items := [itA], values := [], index := [itA]
    fieldMap := [("f", 0), ("g", 1)], weight := 18, points := 1, objects := 1, nobjects := 0 }

/-- Counterexample state for C5: item b carries one field value while the
registry holds two names. -/
def cBad : Collection GeoObject :=
  { items := [itA, itB], values := [], index := [itA, itB]
    fieldMap := [("f", 0), ("g", 1)], weight := 28, points := 2, objects := 2, nobjects := 0 }

theorem cBad1_step : Collection.New.ReplaceOrInsert geoOps "a" (GeoObject.geom 1 1 bb0 "x")
    (some ["f", "g"]) [(1 : F), 2] = some (none, [], [(1 : F), 2], cBad1) := by decide

theorem cBad_step : cBad1.ReplaceOrInsert geoOps "b" (GeoObject.geom 1 1 bb0 "y")
    (some ["f"]) [(3 : F)] = some (none, [], [(3 : F)], cBad) := by decide

/-- Counterexample for C5: a reachable two-item collection in which one
item carries a field vector shorter than the registry. Decoding the
snapshot document produced from it panics, modelled as none: the decode
loop feeds every row the full field-name array and indexes the shorter
value list out of range. So the encode-decode cycle does not yield an
observationally equal collection for every collection. -/
theorem c5_counterexample :
    Collection.Reachable geoOps parseGeom cBad
      ∧ Collection.New.UnmarshalJSON geoOps parseGeom
          (Portable.toDoc (cBad.MarshalJSON geoOps)) = none :=
  ⟨Collection.Reachable.step cBad1 cBad
      (Collection.Reachable.step Collection.New cBad1 Collection.Reachable.new
        (Collection.Step.replaceOrInsert Collection.New "a" (GeoObject.geom 1 1 bb0 "x")
          (some ["f", "g"]) [(1 : F), 2] (none, [], [(1 : F), 2], cBad1) cBad1_step))
      (Collection.Step.replaceOrInsert cBad1 "b" (GeoObject.geom 1 1 bb0 "y")
        (some ["f"]) [(3 : F)] (none, [], [(3 : F)], cBad) cBad_step),
    by rfl⟩

/-- Witness for C5 at a concrete one-item state whose field vector has the
registry size. -/
theorem c5_witness :
    (Collection.Inv geoOps q0.2.2.2
      ∧ (∀ it ∈ q0.2.2.2.items, it.fields.length = q0.2.2.2.fieldMap.length)
      ∧ (q0.2.2.2.items = [] → q0.2.2.2.fieldMap = []))
      ∧ (∃ c', Collection.UnmarshalJSON geoOps parseGeom Collection.New
          (Portable.toDoc (q0.2.2.2.MarshalJSON geoOps)) = some (Except.ok (), c')
        ∧ c'.Count = q0.2.2.2.Count
        ∧ c'.items.map (fun x => (x.id, geoOps.marshalJSON x.object, x.fields))
            = q0.2.2.2.items.map (fun x => (x.id, geoOps.marshalJSON x.object, x.fields))
        ∧ c'.FieldArr = q0.2.2.2.FieldArr) :=
  ⟨⟨by decide, by decide, by decide⟩,
    c5_roundtrip geoOps parseGeom q0.2.2.2 (by decide) (by decide) (by decide)
      (fun it _ => ⟨GeoObject.geom 0 0 bb0 (geoOps.marshalJSON it.object), rfl, rfl⟩)⟩

/-- Capability record standing for the spatial facet of the geojson.Object
interface as consumed by the query planner. -/
structure SpatialOps (α : Type) where
  calculatedBBox : α → BBox
  nearby : α → Position → F → Bool
  within : α → α → Bool
  intersects : α → α → Bool
  withinBBox : α → BBox → Bool
  intersectsBBox : α → BBox → Bool

/-- Overlap of two boxes on all three axes. Modelled from the spec: the
R-tree search reports the items whose box overlaps the query box. -/
def rectOverlap (a b : BBox) : Bool :=
  decide (a.min.x ≤ b.max.x ∧ b.min.x ≤ a.max.x
    ∧ a.min.y ≤ b.max.y ∧ b.min.y ≤ a.max.y
    ∧ a.min.z ≤ b.max.z ∧ b.min.z ≤ a.max.z)

/-- Traversal core of one R-tree Search call. Modelled from the spec: the
matching items are visited in a deterministic order; the cursor is a
pre-visit skip count over them; the callback returning false stops the
call; the return value is the traversal count, usable to resume. The
callback threads a state, standing for the closure state of the Go
callbacks. -/
def searchGo {α σ : Type} (f : σ → ItemT α → σ × Bool) :
    List (ItemT α) → Nat → Nat → σ → σ × Nat
  | [], i, _, s => (s, i)
  | it :: rest, i, cur, s =>
      if cur ≤ i then
        let r := f s it
        if r.2 then searchGo f rest (i + 1) cur r.1 else (r.1, i + 1)
      else searchGo f rest (i + 1) cur s

/-- One Search call of the external R-tree over a query box (spec section
on the spatial index): runs the traversal over the items overlapping the
box. -/
def indexSearch {α σ : Type} (ops : SpatialOps α) (items : List (ItemT α)) (cursor : Nat)
    (bbox : BBox) (f : σ → ItemT α → σ × Bool) (s : σ) : σ × Nat :=
  searchGo f (items.filter fun it => rectOverlap (ops.calculatedBBox it.object) bbox)
    0 cursor s

/-- geoSearch from collection.go lines 403 to 415: searches the R-tree
over the query box and forwards id, object and fields of each item to the
iterator; the iterator returning false stops the search. -/
def Collection.geoSearch {α σ : Type} (ops : SpatialOps α) (c : Collection α) (cursor : Nat)
    (bbox : BBox) (f : σ → String × α × List F → σ × Bool) (s : σ) : σ × Nat :=
  indexSearch ops c.index cursor bbox (fun s it => f s (it.id, it.object, it.fields)) s

/-- Uniform grid tiling: split by split tiles, rows bottom to top and
columns left to right, as built by the double loop of Intersects
(collection.go lines 502 to 513). The Go loop steps by floating-point
increments; it is modelled by the index grid, which coincides with it at
exactly representable inputs. -/
def gridTiles (b : BBox) (minZ maxZ : F) (split : Nat) : List BBox :=
  let xpart := (b.max.x - b.min.x) / (split : F)
  let ypart := (b.max.y - b.min.y) / (split : F)
  (List.range split).bind fun iy =>
    (List.range split).map fun ix =>
      { min := { x := b.min.x + ix * xpart, y := b.min.y + iy * ypart, z := minZ }
        max := { x := b.min.x + ix * xpart + xpart, y := b.min.y + iy * ypart + ypart
                 z := maxZ } }

/-- Modelled from the spec: BBox.Sparse cuts the box into 2 to the n by
2 to the n equal tiles in the X and Y plane, keeping the z range. -/
def BBox.sparse (b : BBox) (n : Nat) : List BBox :=
  gridTiles b b.min.z b.max.z (2 ^ n)

/-- Modelled from the spec: the helper building a box that extends meters
in all directions around the center (degree conversion abstracted). -/
def bboxesFromCenter (lat lon meters : F) : BBox :=
  { min := { x := lon - meters, y := lat - meters, z := 0 }
    max := { x := lon + meters, y := lat + meters, z := 0 } }

/-- Replaces the z range of a box, as done per tile by Nearby
(collection.go line 424 and 436). -/
def BBox.withZ (b : BBox) (minZ maxZ : F) : BBox :=
  { b with min := { b.min with z := minZ }, max := { b.max with z := maxZ } }

/-- Nearby from collection.go lines 417 to 443. In sparse mode each tile
is searched with the incoming cursor, the iterator returning true stops
only the current tile search, and the call returns 0. -/
def Collection.Nearby {α σ : Type} (ops : SpatialOps α) (c : Collection α)
    (cursor sparse : Nat) (lat lon meters minZ maxZ : F)
    (iterator : σ → String × α × List F → σ × Bool) (s : σ) : σ × Nat :=
  let center : Position := { x := lon, y := lat, z := 0 }
  let bbox := bboxesFromCenter lat lon meters
  let bboxes := bbox.sparse sparse
  if sparse > 0 then
    (bboxes.foldl (fun s bb =>
      (c.geoSearch ops cursor (bb.withZ minZ maxZ) (fun s entry =>
        if ops.nearby entry.2.1 center meters then
          let r := iterator s entry
          (r.1, !r.2)
        else (s, true)) s).1) s, 0)
  else
    c.geoSearch ops cursor (bbox.withZ minZ maxZ) (fun s entry =>
      if ops.nearby entry.2.1 center meters then iterator s entry else (s, true)) s

/-- Within from collection.go lines 445 to 491. With a non-null target the
sparse loop runs the target-refined search and then unconditionally the
bbox-refined search on every tile. -/
def Collection.Within {α σ : Type} (ops : SpatialOps α) (c : Collection α)
    (cursor sparse : Nat) (obj : Option α) (minLat minLon maxLat maxLon minZ maxZ : F)
    (iterator : σ → String × α × List F → σ × Bool) (s : σ) : σ × Nat :=
  let bbox : BBox :=
    match obj with
    | some o => ops.calculatedBBox o
    | none => { min := { x := minLon, y := minLat, z := minZ }
                max := { x := maxLon, y := maxLat, z := maxZ } }
  let bboxes := bbox.sparse sparse
  if sparse > 0 then
    (bboxes.foldl (fun s bb =>
      let s :=
        match obj with
        | some o =>
            (c.geoSearch ops cursor bb (fun s entry =>
              if ops.within entry.2.1 o then
                let r := iterator s entry
                (r.1, !r.2)
              else (s, true)) s).1
        | none => s
      (c.geoSearch ops cursor bb (fun s entry =>
        if ops.withinBBox entry.2.1 bb then
          let r := iterator s entry
          (r.1, !r.2)
        else (s, true)) s).1) s, 0)
  else
    match obj with
    | some o =>
        c.geoSearch ops cursor bbox (fun s entry =>
          if ops.within entry.2.1 o then iterator s entry else (s, true)) s
    | none =>
        c.geoSearch ops cursor bbox (fun s entry =>
          if ops.withinBBox entry.2.1 bbox then iterator s entry else (s, true)) s

/-- Intersects from collection.go lines 493 to 550; the last two float
parameters are declared in the order maxZ then minZ in the source. With a
non-null target the sparse loop runs the target-refined search and then
unconditionally the bbox-refined search on every tile. -/
def Collection.Intersects {α σ : Type} (ops : SpatialOps α) (c : Collection α)
    (cursor sparse : Nat) (obj : Option α) (minLat minLon maxLat maxLon maxZ minZ : F)
    (iterator : σ → String × α × List F → σ × Bool) (s : σ) : σ × Nat :=
  let bbox : BBox :=
    match obj with
    | some o => ops.calculatedBBox o
    | none => { min := { x := minLon, y := minLat, z := minZ }
                max := { x := maxLon, y := maxLat, z := maxZ } }
  if sparse > 0 then
    let bboxes := gridTiles bbox minZ maxZ (2 ^ sparse)
    (bboxes.foldl (fun s bb =>
      let s :=
        match obj with
        | some o =>
            (c.geoSearch ops cursor bb (fun s entry =>
              if ops.intersects entry.2.1 o then
                let r := iterator s entry
                (r.1, !r.2)
              else (s, true)) s).1
        | none => s
      (c.geoSearch ops cursor bb (fun s entry =>
        if ops.intersectsBBox entry.2.1 bb then
          let r := iterator s entry
          (r.1, !r.2)
        else (s, true)) s).1) s, 0)
  else
    match obj with
    | some o =>
        c.geoSearch ops cursor bbox (fun s entry =>
          if ops.intersects entry.2.1 o then iterator s entry else (s, true)) s
    | none =>
        c.geoSearch ops cursor bbox (fun s entry =>
          if ops.intersectsBBox entry.2.1 bbox then iterator s entry else (s, true)) s

/-- Concrete spatial object for the spatial witnesses: a box plus fixed
predicate answers, a legitimate instance of the opaque capability set. -/
structure SObj where
  bb : BBox
  nearbyAns : Bool
  withinAns : Bool
  intersectsAns : Bool
  withinBBoxAns : Bool
  intersectsBBoxAns : Bool
deriving DecidableEq

/-- Spatial capability instance for SObj. -/
def sOps : SpatialOps SObj :=
  { calculatedBBox := fun o => o.bb
    nearby := fun o _ _ => o.nearbyAns
    within := fun o _ => o.withinAns
    intersects := fun o _ => o.intersectsAns
    withinBBox := fun o _ => o.withinBBoxAns
    intersectsBBox := fun o _ => o.intersectsBBoxAns }

/-- Collecting visitor that never asks to stop; in the sparse paths the
iterator returning true means stop, so this one enumerates every visit. -/
def collectAll {α : Type} : List String → String × α × List F → List String × Bool :=
  fun acc entry => (acc ++ [entry.1], false)

/-- Collecting visitor that asks to stop after every visit. -/
def collectStop {α : Type} : List String → String × α × List F → List String × Bool :=
  fun acc entry => (acc ++ [entry.1], true)

theorem searchGo_total_h {α σ : Type} (f : σ → ItemT α → σ × Bool) (g : σ → ItemT α → σ)
    (hf : ∀ s it, f s it = (g s it, true)) :
    ∀ (l : List (ItemT α)) (i cur : Nat) (s : σ),
    searchGo f l i cur s = ((l.drop (cur - i)).foldl g s, i + l.length) := by
  intro l
  induction l with
  | nil => intro i cur s; simp [searchGo]
  | cons it rest ih =>
      intro i cur s
      by_cases h : cur ≤ i
      · have hd : cur - i = 0 := by omega
        have hd1 : cur - (i + 1) = 0 := by omega
        simp only [searchGo, if_pos h, hf, ih, hd, hd1]
        simp
        omega
      · have hk : cur - i = (cur - (i + 1)) + 1 := by omega
        simp only [searchGo, if_neg h, ih, hk, List.drop_succ_cons]
        simp
        omega

theorem searchGo_first_h {α : Type} (f : List String → ItemT α → List String × Bool)
    (p : ItemT α → Bool)
    (hf : ∀ s it, f s it = if p it then (s ++ [it.id], false) else (s, true)) :
    ∀ (l : List (ItemT α)) (i cur : Nat) (acc : List String),
    (searchGo f l i cur acc).1
      = acc ++ ((((l.drop (cur - i)).filter p).map fun it => it.id).take 1) := by
  intro l
  induction l with
  | nil => intro i cur acc; simp [searchGo]
  | cons it rest ih =>
      intro i cur acc
      by_cases h : cur ≤ i
      · have hd : cur - i = 0 := by omega
        have hd1 : cur - (i + 1) = 0 := by omega
        by_cases hp : p it = true
        · simp only [searchGo, if_pos h, hf, hp, hd]
          simp [hp]
        · simp only [searchGo, if_pos h, hf, hp, hd, hd1]
          simp only [Bool.false_eq_true, if_false, if_true]
          rw [ih, hd1]
          simp [hp]
      · have hk : cur - i = (cur - (i + 1)) + 1 := by omega
        simp only [searchGo, if_neg h]
        rw [ih, hk, List.drop_succ_cons]

theorem foldl_collect {α : Type} (p : ItemT α → Bool) :
    ∀ (l : List (ItemT α)) (acc : List String),
    l.foldl (fun s it => if p it then s ++ [it.id] else s) acc
      = acc ++ ((l.filter p).map fun it => it.id) := by
  intro l
  induction l with
  | nil => intro acc; simp
  | cons it rest ih =>
      intro acc
      by_cases hp : p it = true
      · simp [List.foldl_cons, hp, ih]
      · simp [List.foldl_cons, hp, ih]

theorem geoSearch_collectAll {α : Type} (ops : SpatialOps α) (c : Collection α)
    (cursor : Nat) (bb : BBox) (p : α → Bool) (acc : List String) :
    (c.geoSearch ops cursor bb (fun s e =>
        if p e.2.1 then
          let r := collectAll s e
          (r.1, !r.2)
        else (s, true)) acc).1
      = acc ++ ((((c.index.filter fun it =>
            rectOverlap (ops.calculatedBBox it.object) bb).drop cursor).filter
          fun it => p it.object).map fun it => it.id) := by
  have hstep : c.geoSearch ops cursor bb (fun s e =>
        if p e.2.1 then
          let r := collectAll s e
          (r.1, !r.2)
        else (s, true)) acc
      = searchGo (fun s it =>
          if p it.object then
            let r := collectAll s (it.id, it.object, it.fields)
            (r.1, !r.2)
          else (s, true))
        (c.index.filter fun it => rectOverlap (ops.calculatedBBox it.object) bb)
        0 cursor acc := rfl
  rw [hstep, searchGo_total_h
    (fun s it =>
      if p it.object then
        let r := collectAll s (it.id, it.object, it.fields)
        (r.1, !r.2)
      else (s, true))
    (fun s it => if p it.object then s ++ [it.id] else s)
    (by intro s it; by_cases hp : p it.object = true <;> simp [collectAll, hp])]
  rw [Nat.sub_zero]
  exact foldl_collect (fun it => p it.object) _ acc

theorem geoSearch_collectStop {α : Type} (ops : SpatialOps α) (c : Collection α)
    (cursor : Nat) (bb : BBox) (p : α → Bool) (acc : List String) :
    (c.geoSearch ops cursor bb (fun s e =>
        if p e.2.1 then
          let r := collectStop s e
          (r.1, !r.2)
        else (s, true)) acc).1
      = acc ++ (((((c.index.filter fun it =>
            rectOverlap (ops.calculatedBBox it.object) bb).drop cursor).filter
          fun it => p it.object).map fun it => it.id).take 1) := by
  have hstep : c.geoSearch ops cursor bb (fun s e =>
        if p e.2.1 then
          let r := collectStop s e
          (r.1, !r.2)
        else (s, true)) acc
      = searchGo (fun s it =>
          if p it.object then
            let r := collectStop s (it.id, it.object, it.fields)
            (r.1, !r.2)
          else (s, true))
        (c.index.filter fun it => rectOverlap (ops.calculatedBBox it.object) bb)
        0 cursor acc := rfl
  rw [hstep, searchGo_first_h
    (fun s it =>
      if p it.object then
        let r := collectStop s (it.id, it.object, it.fields)
        (r.1, !r.2)
      else (s, true))
    (fun it => p it.object)
    (by intro s it; by_cases hp : p it.object = true <;> simp [collectStop, hp])]
  rw [Nat.sub_zero]

theorem tilesFold_collectAll {α : Type} (ops : SpatialOps α) (c : Collection α)
    (cursor : Nat) (p : BBox → α → Bool) (tf : BBox → BBox) :
    ∀ (tiles : List BBox) (acc : List String),
    tiles.foldl (fun s bb =>
      (c.geoSearch ops cursor (tf bb) (fun s e =>
        if p bb e.2.1 then
          let r := collectAll s e
          (r.1, !r.2)
        else (s, true)) s).1) acc
    = acc ++ tiles.bind (fun bb =>
        (((c.index.filter fun it =>
            rectOverlap (ops.calculatedBBox it.object) (tf bb)).drop cursor).filter
          fun it => p bb it.object).map fun it => it.id) := by
  intro tiles
  induction tiles with
  | nil => intro acc; simp
  | cons bb rest ih =>
      intro acc
      rw [List.foldl_cons, geoSearch_collectAll, ih]
      simp [List.cons_bind, List.append_assoc]

theorem tilesFold_collectStop {α : Type} (ops : SpatialOps α) (c : Collection α)
    (cursor : Nat) (p : BBox → α → Bool) (tf : BBox → BBox) :
    ∀ (tiles : List BBox) (acc : List String),
    tiles.foldl (fun s bb =>
      (c.geoSearch ops cursor (tf bb) (fun s e =>
        if p bb e.2.1 then
          let r := collectStop s e
          (r.1, !r.2)
        else (s, true)) s).1) acc
    = acc ++ tiles.bind (fun bb =>
        ((((c.index.filter fun it =>
            rectOverlap (ops.calculatedBBox it.object) (tf bb)).drop cursor).filter
          fun it => p bb it.object).map fun it => it.id).take 1) := by
  intro tiles
  induction tiles with
  | nil => intro acc; simp
  | cons bb rest ih =>
      intro acc
      rw [List.foldl_cons, geoSearch_collectStop, ih]
      simp [List.cons_bind, List.append_assoc]

/-- Box with corners x1 y1 and x2 y2 at z 0. -/
def mkBB (x1 y1 x2 y2 : F) : BBox :=
  { min := { x := x1, y := y1, z := 0 }, max := { x := x2, y := y2, z := 0 } }

/-- Point object at coordinates 1 1 answering true to every refinement. -/
def sA : SObj :=
  { bb := mkBB 1 1 1 1, nearbyAns := true, withinAns := true, intersectsAns := true
    withinBBoxAns := true, intersectsBBoxAns := true }

/-- Point object at coordinates 3 3 answering true to every refinement. -/
def sB : SObj :=
  { bb := mkBB 3 3 3 3, nearbyAns := true, withinAns := true, intersectsAns := true
    withinBBoxAns := true, intersectsBBoxAns := true }

/-- Item wrapping sA. -/
def sItemA : ItemT SObj := { id := "a", object := sA, fields := [] }

/-- Item wrapping sB. -/
def sItemB : ItemT SObj := { id := "b", object := sB, fields := [] }

/-- One-object collection for the sparse cursor counterexample. -/
def cS1 : Collection SObj :=
  { items := [sItemA], values := [sItemA], index := [sItemA], fieldMap := []
    weight := 0, points := 0, objects := 1, nobjects := 0 }

/-- Two-object collection whose objects land in different sparse tiles. -/
def cS2 : Collection SObj :=
  { items := [sItemA, sItemB], values := [sItemA, sItemB], index := [sItemA, sItemB]
    fieldMap := [], weight := 0, points := 0, objects := 2, nobjects := 0 }

section RatSemireducible

attribute [local semireducible] Rat.add Rat.mul Rat.sub Rat.inv

/-- C2: counterexample. The claim says each per-tile Search runs with
cursor 0, so the caller cursor would not change the result; but a sparse
Within over a one-object collection visits the object at cursor 0 and
visits nothing at cursor 5: the caller cursor is applied to every tile. -/
theorem c2_counterexample :
    (cS1.Within sOps 5 1 none 0 0 4 4 0 0 collectAll []).1 = []
    ∧ (cS1.Within sOps 0 1 none 0 0 4 4 0 0 collectAll []).1 = ["a"]
    ∧ ¬ ((cS1.Within sOps 5 1 none 0 0 4 4 0 0 collectAll []).1
        = (cS1.Within sOps 0 1 none 0 0 4 4 0 0 collectAll []).1) := by
  decide

/-- C2: amended property. In sparse mode the three queries return cursor 0,
and each per-tile Search receives the caller cursor unchanged: with the
always-continue collector, the visits of Nearby are exactly, tile by tile,
the overlap matches with the first cursor of them dropped. -/
theorem c2_sparse_cursor {α σ : Type} (ops : SpatialOps α) (c : Collection α)
    (cursor sparse : Nat) (obj : Option α)
    (lat lon meters minLat minLon maxLat maxLon minZ maxZ : F)
    (iterator : σ → String × α × List F → σ × Bool) (s : σ) (acc : List String)
    (h : 0 < sparse) :
    (c.Nearby ops cursor sparse lat lon meters minZ maxZ iterator s).2 = 0
    ∧ (c.Within ops cursor sparse obj minLat minLon maxLat maxLon minZ maxZ iterator s).2 = 0
    ∧ (c.Intersects ops cursor sparse obj minLat minLon maxLat maxLon maxZ minZ iterator s).2 = 0
    ∧ (c.Nearby ops cursor sparse lat lon meters minZ maxZ collectAll acc).1
      = acc ++ ((bboxesFromCenter lat lon meters).sparse sparse).bind (fun bb =>
          (((c.index.filter fun it =>
              rectOverlap (ops.calculatedBBox it.object) (bb.withZ minZ maxZ)).drop cursor).filter
            fun it => ops.nearby it.object { x := lon, y := lat, z := 0 } meters).map
            fun it => it.id) := by
  refine ⟨?_, ?_, ?_, ?_⟩
  · simp only [Collection.Nearby]
    rw [if_pos h]
  · simp only [Collection.Within]
    rw [if_pos h]
  · simp only [Collection.Intersects]
    rw [if_pos h]
  · simp only [Collection.Nearby]
    rw [if_pos h]
    exact tilesFold_collectAll ops c cursor
      (fun _ a => ops.nearby a { x := lon, y := lat, z := 0 } meters)
      (fun b => b.withZ minZ maxZ) ((bboxesFromCenter lat lon meters).sparse sparse) acc

end RatSemireducible

/-- Witness for c2_sparse_cursor at sparse 1 on the one-object collection. -/
theorem c2_witness :
    (cS1.Nearby sOps 0 1 2 2 2 0 0 collectAll []).2 = 0
    ∧ (cS1.Within sOps 0 1 none 0 0 4 4 0 0 collectAll []).2 = 0
    ∧ (cS1.Intersects sOps 0 1 none 0 0 4 4 0 0 collectAll []).2 = 0
    ∧ (cS1.Nearby sOps 0 1 2 2 2 0 0 collectAll []).1
      = [] ++ ((bboxesFromCenter 2 2 2).sparse 1).bind (fun bb =>
          (((cS1.index.filter fun it =>
              rectOverlap (sOps.calculatedBBox it.object) (bb.withZ 0 0)).drop 0).filter
            fun it => sOps.nearby it.object { x := 2, y := 2, z := 0 } 2).map
            fun it => it.id) :=
  c2_sparse_cursor sOps cS1 0 1 none 2 2 2 0 0 4 4 0 0 collectAll [] [] (by decide)

section RatSemireducibleB

attribute [local semireducible] Rat.add Rat.mul Rat.sub Rat.inv

/-- C3: counterexample. Two objects sit in different sparse tiles and the
iterator asks to stop at every visit; the claim says the whole query halts
at the first visit, so only one id would be delivered, but the loop keeps
searching the remaining tiles and both ids are delivered. -/
theorem c3_counterexample :
    (cS2.Nearby sOps 0 1 2 2 2 0 0 collectStop []).1 = ["a", "b"]
    ∧ ¬ ((cS2.Nearby sOps 0 1 2 2 2 0 0 collectStop []).1 = ["a"]) := by
  decide

end RatSemireducibleB

/-- C3: amended property. In sparse mode an iterator returning true stops
only the current tile search: with the stop-after-every-visit collector
the query still delivers up to one id per tile, the head of that tile's
matches after the cursor skip, instead of halting the whole query. -/
theorem c3_stop_per_tile {α : Type} (ops : SpatialOps α) (c : Collection α)
    (cursor sparse : Nat) (lat lon meters minLat minLon maxLat maxLon minZ maxZ : F)
    (acc : List String) (h : 0 < sparse) :
    (c.Nearby ops cursor sparse lat lon meters minZ maxZ collectStop acc).1
      = acc ++ ((bboxesFromCenter lat lon meters).sparse sparse).bind (fun bb =>
          ((((c.index.filter fun it =>
              rectOverlap (ops.calculatedBBox it.object) (bb.withZ minZ maxZ)).drop cursor).filter
            fun it => ops.nearby it.object { x := lon, y := lat, z := 0 } meters).map
            fun it => it.id).take 1)
    ∧ (c.Within ops cursor sparse none minLat minLon maxLat maxLon minZ maxZ collectStop acc).1
      = acc ++ ((BBox.sparse
            { min := { x := minLon, y := minLat, z := minZ }
              max := { x := maxLon, y := maxLat, z := maxZ } } sparse).bind (fun bb =>
          ((((c.index.filter fun it =>
              rectOverlap (ops.calculatedBBox it.object) bb).drop cursor).filter
            fun it => ops.withinBBox it.object bb).map
            fun it => it.id).take 1))
    ∧ (c.Intersects ops cursor sparse none minLat minLon maxLat maxLon maxZ minZ collectStop acc).1
      = acc ++ ((gridTiles
            { min := { x := minLon, y := minLat, z := minZ }
              max := { x := maxLon, y := maxLat, z := maxZ } } minZ maxZ (2 ^ sparse)).bind (fun bb =>
          ((((c.index.filter fun it =>
              rectOverlap (ops.calculatedBBox it.object) bb).drop cursor).filter
            fun it => ops.intersectsBBox it.object bb).map
            fun it => it.id).take 1)) := by
  refine ⟨?_, ?_, ?_⟩
  · simp only [Collection.Nearby]
    rw [if_pos h]
    exact tilesFold_collectStop ops c cursor
      (fun _ a => ops.nearby a { x := lon, y := lat, z := 0 } meters)
      (fun b => b.withZ minZ maxZ) ((bboxesFromCenter lat lon meters).sparse sparse) acc
  · simp only [Collection.Within]
    rw [if_pos h]
    exact tilesFold_collectStop ops c cursor (fun bb a => ops.withinBBox a bb)
      (fun b => b)
      (BBox.sparse
        { min := { x := minLon, y := minLat, z := minZ }
          max := { x := maxLon, y := maxLat, z := maxZ } } sparse) acc
  · simp only [Collection.Intersects]
    rw [if_pos h]
    exact tilesFold_collectStop ops c cursor (fun bb a => ops.intersectsBBox a bb)
      (fun b => b)
      (gridTiles
        { min := { x := minLon, y := minLat, z := minZ }
          max := { x := maxLon, y := maxLat, z := maxZ } } minZ maxZ (2 ^ sparse)) acc

/-- Witness for c3_stop_per_tile at sparse 1 on the two-object collection. -/
theorem c3_witness :
    (cS2.Nearby sOps 0 1 2 2 2 0 0 collectStop []).1
      = [] ++ ((bboxesFromCenter 2 2 2).sparse 1).bind (fun bb =>
          ((((cS2.index.filter fun it =>
              rectOverlap (sOps.calculatedBBox it.object) (bb.withZ 0 0)).drop 0).filter
            fun it => sOps.nearby it.object { x := 2, y := 2, z := 0 } 2).map
            fun it => it.id).take 1)
    ∧ (cS2.Within sOps 0 1 none 0 0 4 4 0 0 collectStop []).1
      = [] ++ ((BBox.sparse
            { min := { x := 0, y := 0, z := 0 }
              max := { x := 4, y := 4, z := 0 } } 1).bind (fun bb =>
          ((((cS2.index.filter fun it =>
              rectOverlap (sOps.calculatedBBox it.object) bb).drop 0).filter
            fun it => sOps.withinBBox it.object bb).map
            fun it => it.id).take 1))
    ∧ (cS2.Intersects sOps 0 1 none 0 0 4 4 0 0 collectStop []).1
      = [] ++ ((gridTiles
            { min := { x := 0, y := 0, z := 0 }
              max := { x := 4, y := 4, z := 0 } } 0 0 (2 ^ 1)).bind (fun bb =>
          ((((cS2.index.filter fun it =>
              rectOverlap (sOps.calculatedBBox it.object) bb).drop 0).filter
            fun it => sOps.intersectsBBox it.object bb).map
            fun it => it.id).take 1)) :=
  c3_stop_per_tile sOps cS2 0 1 2 2 2 0 0 4 4 0 0 [] (by decide)

/-- Object at 1 1 failing both target refinements yet passing both bbox
refinements. -/
def sA4 : SObj :=
  { bb := mkBB 1 1 1 1, nearbyAns := true, withinAns := false, intersectsAns := false
    withinBBoxAns := true, intersectsBBoxAns := true }

/-- Object at 1 1 passing every refinement. -/
def sB4 : SObj :=
  { bb := mkBB 1 1 1 1, nearbyAns := true, withinAns := true, intersectsAns := true
    withinBBoxAns := true, intersectsBBoxAns := true }

/-- Target object whose calculated box is the square from 0 0 to 4 4. -/
def sT4 : SObj :=
  { bb := mkBB 0 0 4 4, nearbyAns := true, withinAns := true, intersectsAns := true
    withinBBoxAns := true, intersectsBBoxAns := true }

/-- Item wrapping sA4. -/
def sItemA4 : ItemT SObj := { id := "a", object := sA4, fields := [] }

/-- Item wrapping sB4. -/
def sItemB4 : ItemT SObj := { id := "b", object := sB4, fields := [] }

/-- Two-object collection for the missing-else run. -/
def cS4 : Collection SObj :=
  { items := [sItemA4, sItemB4], values := [sItemA4, sItemB4], index := [sItemA4, sItemB4]
    fieldMap := [], weight := 0, points := 0, objects := 2, nobjects := 0 }

section RatSemireducibleC

attribute [local semireducible] Rat.add Rat.mul Rat.sub Rat.inv

/-- C4: the sparse branches of Within and Intersects are missing the else
between the target-refined search and the bbox-refined search, so with a
non-null target the bbox-refined search still runs on every tile: object
a, which fails Within target (and Intersects target), is visited anyway,
and object b, which passes, is visited twice; the visit list is b, a, b
instead of b. At sparse 0 the refinement is exclusive and only b is
visited. -/
theorem c4_double_search :
    (cS4.Within sOps 0 1 (some sT4) 0 0 0 0 0 0 collectAll []).1 = ["b", "a", "b"]
    ∧ (cS4.Intersects sOps 0 1 (some sT4) 0 0 0 0 0 0 collectAll []).1 = ["b", "a", "b"]
    ∧ sOps.within sA4 sT4 = false ∧ sOps.intersects sA4 sT4 = false
    ∧ (cS4.Within sOps 0 0 (some sT4) 0 0 0 0 0 0 collectAll []).1 = ["b"]
    ∧ (cS4.Intersects sOps 0 0 (some sT4) 0 0 0 0 0 0 collectAll []).1 = ["b"] := by
  decide

end RatSemireducibleC
